import Mathlib

/-!
Verification of the locomotive chatbot entity-extraction core

A shallow embedding of `src/chatbot-core/nlp/extractLocoQuery.ts` (the
candidate extractor) and of the deterministic resolver described by the
repository's resolver strategy document, together with proofs of the
behavioural claims about them.

Strings are modelled as `List Char` (the TypeScript code only manipulates
ASCII text, for which JavaScript UTF-16 code-unit indices coincide with
character indices).  Each JavaScript regular expression used by the source
is embedded as a backtracking matcher: a function from the full input and a
start position to the list of possible matches in JavaScript priority order
(leftmost alternative first, greedy repetition longest first), so that the
head of the list is exactly the match JavaScript's `exec` would select at
that position.  Word-boundary assertions consult the full input, as in
JavaScript.
-/

namespace Loco

/-! Character classes (JavaScript `\d`, `\s`, `\w` and the classes used
by the source regexes, ASCII fragment) -/

def isDigitC (c : Char) : Bool := ('0' ≤ c) && (c ≤ '9')

def isAsciiUpperC (c : Char) : Bool := ('A' ≤ c) && (c ≤ 'Z')

def isAsciiLowerC (c : Char) : Bool := ('a' ≤ c) && (c ≤ 'z')

def isAlphaC (c : Char) : Bool := isAsciiUpperC c || isAsciiLowerC c

/-- JavaScript `\w`: `[A-Za-z0-9_]`. -/
def isWordC (c : Char) : Bool := isAlphaC c || isDigitC c || (c == '_')

/-- JavaScript `\s` (ASCII fragment): space, tab, newline, carriage return,
vertical tab, form feed. -/
def isSpaceC (c : Char) : Bool :=
  (c == ' ') || (c == '\t') || (c == '\n') || (c == '\r') ||
  (c == Char.ofNat 11) || (c == Char.ofNat 12)

/-- The `[a-f0-9]` with the `i` flag: hexadecimal digit, either case. -/
def isHexCI (c : Char) : Bool :=
  isDigitC c || (('a' ≤ c) && (c ≤ 'f')) || (('A' ≤ c) && (c ≤ 'F'))

/-- The `[A-Z0-9\-\/]`, the model-token tail class. -/
def isModelC (c : Char) : Bool :=
  isAsciiUpperC c || isDigitC c || (c == '-') || (c == '/')

/-- The `[A-Za-z0-9\-\/]`, the name-token tail class. -/
def isNameC (c : Char) : Bool :=
  isAlphaC c || isDigitC c || (c == '-') || (c == '/')

/-! Small string helpers (`slice`, case mapping, `lastIndexOf`,
`indexOf`-as-substring, `trim`, `split(/\s+/)`, `join(" ")`, `Number`) -/

/-- The `input.slice(a, b)` for already-clamped `a ≤ b` (the source always
clamps with `Math.max`/`Math.min` before slicing; `Nat` subtraction makes
`a - k` behave like `Math.max(0, a - k)`). -/
def sliceL (cs : List Char) (a b : Nat) : List Char := (cs.drop a).take (b - a)

def toLowerL (cs : List Char) : List Char := cs.map Char.toLower

def toUpperL (cs : List Char) : List Char := cs.map Char.toUpper

/-- Does `sub` occur in `s` starting at index `j`? -/
def occursAt (s sub : List Char) (j : Nat) : Bool :=
  ((s.drop j).take sub.length) == sub

/-- JavaScript `s.lastIndexOf(sub)`: index of the last occurrence, `-1` if
none. -/
def lastIndexOfL (s sub : List Char) : Int :=
  match ((List.range (s.length + 1)).filter (occursAt s sub)).getLast? with
  | some j => (j : Int)
  | none => -1

/-- JavaScript `s.indexOf(sub) >= 0`: does `sub` occur in `s`? -/
def containsSub (s sub : List Char) : Bool :=
  (List.range (s.length + 1)).any (occursAt s sub)

/-- JavaScript `s.trim()` (ASCII whitespace). -/
def jsTrim (s : List Char) : List Char :=
  ((s.dropWhile isSpaceC).reverse.dropWhile isSpaceC).reverse

/-- Worker for `split(/\s+/)`: `skipping` records whether we are inside a
whitespace run, `cur` holds the current token reversed. -/
def splitWsGo : List Char → Bool → List Char → List (List Char)
  | [], true, _ => [[]]
  | [], false, cur => [cur.reverse]
  | c :: rest, true, _ =>
      if isSpaceC c then splitWsGo rest true [] else splitWsGo rest false [c]
  | c :: rest, false, cur =>
      if isSpaceC c then cur.reverse :: splitWsGo rest true []
      else splitWsGo rest false (c :: cur)

/-- JavaScript `s.split(/\s+/)`: tokens separated by whitespace runs, with
the JavaScript corner cases (empty string gives `[""]`, leading or trailing
whitespace gives an empty boundary token). -/
def splitWsL (s : List Char) : List (List Char) := splitWsGo s false []

/-- JavaScript `tokens.join(" ")`. -/
def joinSpace : List (List Char) → List Char
  | [] => []
  | [t] => t
  | t :: ts => t ++ ' ' :: joinSpace ts

/-- The `Number(numText)` for a string of decimal digits. -/
def digitsToNat (s : List Char) : Nat :=
  s.foldl (fun a c => a * 10 + (c.toNat - '0'.toNat)) 0

/-- The source's `uniq` helper: keep the first occurrence of each value.
The source tracks already-seen values in a `seen` object whose keys are
exactly the values already pushed to `out`, so the membership test on `out`
is the same test. -/
def uniqAux : List (List Char) → List (List Char) → List (List Char)
  | [], out => out
  | v :: rest, out =>
      if out.contains v then uniqAux rest out else uniqAux rest (out ++ [v])

def uniq (arr : List (List Char)) : List (List Char) := uniqAux arr []

/-! Backtracking matchers

`M α` is a matcher with capture type `α`: given the full input and a start
position it returns every way the pattern can match there, as pairs of the
position one past the match and the capture, in JavaScript backtracking
priority order.  `exec`-style scanning takes the head of this list. -/

abbrev M (α : Type) : Type := List Char → Nat → List (Nat × α)

def mpure {α : Type} (a : α) : M α := fun _ pos => [(pos, a)]

def mbind {α β : Type} (m : M α) (k : α → M β) : M β :=
  fun cs pos => (m cs pos).flatMap (fun r => k r.2 cs r.1)

/-- Alternation, in source order (JavaScript tries alternatives left to
right). -/
def malt {α : Type} (ms : List (M α)) : M α :=
  fun cs pos => ms.flatMap (fun m => m cs pos)

/-- A single character from a class. -/
def mchar (p : Char → Bool) : M Char :=
  fun cs pos =>
    match cs[pos]? with
    | some c => if p c then [(pos + 1, c)] else []
    | none => []

/-- A literal, compared after applying `f` to each input character
(`f := id` for a case-sensitive literal, `f := Char.toLower` for the `i`
flag with a lower-case pattern literal). -/
def mlitBy (f : Char → Char) (s : String) : M Unit :=
  fun cs pos =>
    if (sliceL cs pos (pos + s.length)).map f == s.data
    then [(pos + s.length, ())] else []

def mlit (s : String) : M Unit := mlitBy id s

def mlitCI (s : String) : M Unit := mlitBy Char.toLower s

/-- Length of the run of `p`-characters starting at `pos`, capped at `cap`. -/
def runLen (p : Char → Bool) (cs : List Char) : Nat → Nat → Nat
  | _, 0 => 0
  | pos, cap + 1 =>
      match cs[pos]? with
      | some c => if p c then runLen p cs (pos + 1) cap + 1 else 0
      | none => 0

/-- Greedy counted repetition `p{lo,hi}` of a character class, longest
first, capturing the consumed characters. -/
def mrep (p : Char → Bool) (lo hi : Nat) : M (List Char) :=
  fun cs pos =>
    let r := runLen p cs pos hi
    (List.range (r + 1 - lo)).map
      (fun j => (pos + (r - j), sliceL cs pos (pos + (r - j))))

/-- The `p*` (greedy; a repetition can never exceed the input length). -/
def mstar (p : Char → Bool) : M (List Char) :=
  fun cs pos => mrep p 0 cs.length cs pos

/-- The `p+` (greedy). -/
def mplus (p : Char → Bool) : M (List Char) :=
  fun cs pos => mrep p 1 cs.length cs pos

/-- The `m?` (greedy: presence is tried before absence). -/
def mopt {α : Type} (m : M α) : M (Option α) :=
  fun cs pos => (m cs pos).map (fun r => (r.1, some r.2)) ++ [(pos, none)]

/-- The `(?:m){0,n}` for a sub-pattern `m` (greedy: more repetitions first). -/
def mreps (m : M Unit) : Nat → M Unit
  | 0 => mpure ()
  | n + 1 => malt [mbind m (fun _ => mreps m n), mpure ()]

def isWordAt (cs : List Char) (i : Nat) : Bool :=
  match cs[i]? with
  | some c => isWordC c
  | none => false

/-- The `\b` assertion: word-ness changes between the previous character
and the current one (positions outside the input count as non-word). -/
def wordBoundaryAt (cs : List Char) (pos : Nat) : Bool :=
  (if pos = 0 then false else isWordAt cs (pos - 1)) != isWordAt cs pos

def mbound : M Unit :=
  fun cs pos => if wordBoundaryAt cs pos then [(pos, ())] else []

/-- The `$` assertion (no `m` flag: end of input). -/
def mend : M Unit :=
  fun cs pos => if pos = cs.length then [(pos, ())] else []

/-! The exec loop with the g flag and the source forEachMatch loop -/

/-- The `regex.lastIndex` after a match at `i` of length `len`, including the
source's guard `if (m[0] === "") regex.lastIndex++`. -/
def nextLastIndex (i len : Nat) : Nat := if len = 0 then i + 1 else i + len

/-- One `regex.exec(input)` call of a `g`-flagged regex: try each position
from `pos` on and return the first (index, length, capture); `none` once
the position passes the end of the input.  `fuel` bounds the search; the
caller passes `cs.length + 2`, which theorem `c9` below proves sufficient. -/
def execFromAux {α : Type} (m : M α) (cs : List Char) :
    Nat → Nat → Option (Nat × Nat × α)
  | 0, _ => none
  | fuel + 1, pos =>
      if cs.length < pos then none
      else
        match (m cs pos).head? with
        | some r => some (pos, r.1 - pos, r.2)
        | none => execFromAux m cs fuel (pos + 1)

def execFrom {α : Type} (m : M α) (cs : List Char) (pos : Nat) :
    Option (Nat × Nat × α) :=
  execFromAux m cs (cs.length + 2) pos

/-- The source's `forEachMatch` loop, collecting every match.  The loop in
the source iterates `regex.exec` until it returns `null`; here `fuel`
bounds the iteration and `cs.length + 2` is enough (theorem `c9`). -/
def forEachMatchAux {α : Type} (m : M α) (cs : List Char) :
    Nat → Nat → List (Nat × Nat × α)
  | 0, _ => []
  | fuel + 1, lastIndex =>
      match execFrom m cs lastIndex with
      | none => []
      | some (i, len, a) =>
          (i, len, a) :: forEachMatchAux m cs fuel (nextLastIndex i len)

def allMatches {α : Type} (m : M α) (cs : List Char) : List (Nat × Nat × α) :=
  forEachMatchAux m cs (cs.length + 2) 0

/-- The `regex.test(s)` for an unanchored regex: some position matches. -/
def testSearch {α : Type} (m : M α) (cs : List Char) : Bool :=
  (List.range (cs.length + 1)).any (fun pos => !(m cs pos).isEmpty)

/-- The `regex.exec(s)` / `s.match(regex)` for a `^`-anchored regex: the first
match at position 0, if any. -/
def matchAtHead {α : Type} (m : M α) (cs : List Char) (pos : Nat) :
    Option (Nat × α) :=
  (m cs pos).head?

/-! The source regexes

Each `*_GLOBAL` constant of the source becomes a matcher.  The common tail
`(\d{3,5})\b` is factored as `numTailM`, capturing the digit group. -/

def numTailM : M (List Char) :=
  mbind (mrep isDigitC 3 5) fun num =>
  mbind mbound fun _ => mpure num

/-- The `ASSET_ID_REGEX_GLOBAL = /\b[a-f0-9]{24}\b/gi`. -/
def assetIdM : M (List Char) :=
  mbind mbound fun _ =>
  mbind (mrep isHexCI 24 24) fun hex =>
  mbind mbound fun _ => mpure hex

/-- The keyword alternation of `LOCO_KEYWORD_NUMBER_GLOBAL`, in source
order. -/
def kwAltM : M Unit :=
  malt [mlitCI ("loco"), mlitCI ("locomotive"), mlitCI ("unit"),
        mlitCI ("engine"), mlitCI ("locos"), mlitCI ("units"),
        mlitCI ("engines")]

/-- The `(?:\s*(?:no\.?|number)?)\s*[:#\-]?\s*` — the separator part of
`LOCO_KEYWORD_NUMBER_GLOBAL`. -/
def kwSepM : M Unit :=
  mbind (mstar isSpaceC) fun _ =>
  mbind (mopt (malt
    [mbind (mlitCI ("no")) fun _ => mbind (mopt (mlit ("."))) fun _ => mpure (),
     mlitCI ("number")])) fun _ =>
  mbind (mstar isSpaceC) fun _ =>
  mbind (mopt (mchar (fun c => (c == ':') || (c == '#') || (c == '-')))) fun _ =>
  mbind (mstar isSpaceC) fun _ => mpure ()

/-- Everything of `LOCO_KEYWORD_NUMBER_GLOBAL` before the digit group. -/
def kwNumberPrefixM : M Unit :=
  mbind mbound fun _ =>
  mbind kwAltM fun _ =>
  mbind mbound fun _ => kwSepM

/-- The `LOCO_KEYWORD_NUMBER_GLOBAL =
`/\b(loco|locomotive|unit|engine|locos|units|engines)\b(?:\s*(?:no\.?|number)?)\s*[:#\-]?\s*(\d{3,5})\b/gi`,
capturing group 2 (the digits). -/
def kwNumberM : M (List Char) :=
  mbind kwNumberPrefixM fun _ => numTailM

/-- Everything of `LOCO_KEYWORD_NUMBER_CONCAT_GLOBAL` before the digits. -/
def kwConcatPrefixM : M Unit :=
  mbind mbound fun _ =>
  malt [mlitCI ("loco"), mlitCI ("locomotive"), mlitCI ("unit"),
        mlitCI ("engine")]

/-- The `LOCO_KEYWORD_NUMBER_CONCAT_GLOBAL = /\b(loco|locomotive|unit|engine)(\d{3,5})\b/gi`,
capturing group 2. -/
def kwConcatM : M (List Char) :=
  mbind kwConcatPrefixM fun _ => numTailM

/-- The `LOCO_NUMBER_GLOBAL = /\b\d{3,5}\b/g`. -/
def locoNumberM : M (List Char) :=
  mbind mbound fun _ => numTailM

/-- The `LOCO_NUMBER_START_GLOBAL = /\b\d{3,5}\b/g` (the source declares it
separately from `LOCO_NUMBER_GLOBAL` with an identical pattern). -/
def locoNumberStartM : M (List Char) :=
  mbind mbound fun _ => numTailM

/-- The `LOCO_NAME_NOSPACE_GLOBAL = /\b(\d{3,5})([A-Za-z][A-Za-z0-9\-\/]{2,15})\b/g`,
capturing both groups. -/
def nospaceM : M (List Char × List Char) :=
  mbind mbound fun _ =>
  mbind (mrep isDigitC 3 5) fun num =>
  mbind (mchar isAlphaC) fun c0 =>
  mbind (mrep isNameC 2 15) fun rest =>
  mbind mbound fun _ => mpure (num, c0 :: rest)

/-- The `MODEL_TOKEN_GLOBAL = /\b[A-Z][A-Z0-9\-\/]{2,15}\b/g`. -/
def modelTokenM : M (List Char) :=
  mbind mbound fun _ =>
  mbind (mchar isAsciiUpperC) fun c0 =>
  mbind (mrep isModelC 2 15) fun rest =>
  mbind mbound fun _ => mpure (c0 :: rest)

/-- One `\s+<head class><tail class>*` token of the look-ahead pattern in
`extractNames` phase 1. -/
def wsTokM (headCls : Char → Bool) : M Unit :=
  mbind (mplus isSpaceC) fun _ =>
  mbind (mchar headCls) fun _ =>
  mbind (mstar isNameC) fun _ => mpure ()

/-- The `/^(\s+[A-Za-z][A-Za-z0-9\-\/]*(?:\s+[A-Za-z0-9][A-Za-z0-9\-\/]*){0,2})/`,
the anchored look-ahead of `extractNames` phase 1 (run on the suffix after
the number; the capture is the whole match, so only the end position is
needed). -/
def afterPhraseM : M Unit :=
  mbind (wsTokM isAlphaC) fun _ =>
  mreps (wsTokM (fun c => isAlphaC c || isDigitC c)) 2

/-- The `/\b(loco|locomotive|unit|engine)\b/`, tested on an already
lower-cased context window by `nearKeywords`. -/
def kwSearchM : M Unit :=
  mbind mbound fun _ =>
  mbind (malt [mlit ("loco"), mlit ("locomotive"), mlit ("unit"),
               mlit ("engine")]) fun _ =>
  mbind mbound fun _ => mpure ()

/-- The `days?\b` on an already lower-cased tail. -/
def daysTailM : M Unit :=
  mbind (mlit ("day")) fun _ =>
  mbind (mopt (mlit ("s"))) fun _ =>
  mbind mbound fun _ => mpure ()

/-- The `/^(\s*-\s*days?\b|\s+days?\b|-\s*days?\b|d\b|d\s)/` of
`isFollowedByDayish`, alternatives in source order. -/
def dayishM : M Unit :=
  malt
    [mbind (mstar isSpaceC) fun _ => mbind (mlit ("-")) fun _ =>
       mbind (mstar isSpaceC) fun _ => daysTailM,
     mbind (mplus isSpaceC) fun _ => daysTailM,
     mbind (mlit ("-")) fun _ => mbind (mstar isSpaceC) fun _ => daysTailM,
     mbind (mlit ("d")) fun _ => mbound,
     mbind (mlit ("d")) fun _ => mbind (mchar isSpaceC) fun _ => mpure ()]

/-- The `/\b(top|first|last|limit)\s*$/` on the lower-cased left context of
`looksLikeCountNumber`. -/
def countLeft1M : M Unit :=
  mbind mbound fun _ =>
  mbind (malt [mlit ("top"), mlit ("first"), mlit ("last"),
               mlit ("limit")]) fun _ =>
  mbind (mstar isSpaceC) fun _ => mend

/-- The `/\b(show|list|display|get|give|find)\s*$/` on the lower-cased left
context. -/
def countLeft2M : M Unit :=
  mbind mbound fun _ =>
  mbind (malt [mlit ("show"), mlit ("list"), mlit ("display"),
               mlit ("get"), mlit ("give"), mlit ("find")]) fun _ =>
  mbind (mstar isSpaceC) fun _ => mend

/-- A word with an optional plural `s`, of the right-context alternation. -/
def optPluralM (base : String) : M Unit :=
  mbind (mlit base) fun _ => mbind (mopt (mlit ("s"))) fun _ => mpure ()

/-- The `/^\s*(inspections?|locos?|locomotives?|units?|engines?|records?|items?|results?)\b/`
on the lower-cased right context. -/
def countRightM : M Unit :=
  mbind (mstar isSpaceC) fun _ =>
  mbind (malt [optPluralM ("inspection"), optPluralM ("loco"),
               optPluralM ("locomotive"), optPluralM ("unit"),
               optPluralM ("engine"), optPluralM ("record"),
               optPluralM ("item"), optPluralM ("result")]) fun _ =>
  mbind mbound fun _ => mpure ()

/-- The `/\b(number\s+of|count\s+of)\s*$/` on the lower-cased left context. -/
def countLeft3M : M Unit :=
  mbind mbound fun _ =>
  mbind (malt
    [mbind (mlit ("number")) fun _ => mbind (mplus isSpaceC) fun _ =>
       mlit ("of"),
     mbind (mlit ("count")) fun _ => mbind (mplus isSpaceC) fun _ =>
       mlit ("of")]) fun _ =>
  mbind (mstar isSpaceC) fun _ => mend

/-- The `out\s*of\s*use` of the domain-context regex. -/
def outOfUseM : M Unit :=
  mbind (mlitCI ("out")) fun _ =>
  mbind (mstar isSpaceC) fun _ =>
  mbind (mlitCI ("of")) fun _ =>
  mbind (mstar isSpaceC) fun _ => mlitCI ("use")

/-- The `hasDomainContext` regex
`/\b(due|overdue|inspection|inspections|expiry|expires|expiring|next|credit|out\s*of\s*use|status|upcoming|schedule|scheduled|pending|completed|history)\b/i`,
alternatives in source order. -/
def domainM : M Unit :=
  mbind mbound fun _ =>
  mbind (malt [mlitCI ("due"), mlitCI ("overdue"), mlitCI ("inspection"),
               mlitCI ("inspections"), mlitCI ("expiry"), mlitCI ("expires"),
               mlitCI ("expiring"), mlitCI ("next"), mlitCI ("credit"),
               outOfUseM, mlitCI ("status"), mlitCI ("upcoming"),
               mlitCI ("schedule"), mlitCI ("scheduled"), mlitCI ("pending"),
               mlitCI ("completed"), mlitCI ("history")]) fun _ =>
  mbind mbound fun _ => mpure ()

/-- The `/^\d{3,5}\b/`, the numbered-name test of `computeConfidence`. -/
def numPrefixM : M Unit :=
  mbind (mrep isDigitC 3 5) fun _ => mbind mbound fun _ => mpure ()

/-! The heuristic helpers of the source -/

/-- The `nearKeywords(input, start, end, window)`. -/
def nearKeywords (cs : List Char) (start endP window : Nat) : Bool :=
  let left := start - window
  let right := min cs.length (endP + window)
  let ctx := toLowerL (sliceL cs left right)
  testSearch kwSearchM ctx

/-- The `isFollowedByDayish(input, end)`. -/
def isFollowedByDayish (cs : List Char) (endP : Nat) : Bool :=
  let tail := toLowerL (sliceL cs endP (min cs.length (endP + 10)))
  !(dayishM tail 0).isEmpty

/-- The `looksLikeYear(n)`. -/
def looksLikeYear (n : Nat) : Bool := (1900 ≤ n) && (n ≤ 2099)

/-- The `looksLikeCountNumber(input, start, end)`. -/
def looksLikeCountNumber (cs : List Char) (start endP : Nat) : Bool :=
  let left := toLowerL (sliceL cs (start - 20) start)
  let right := toLowerL (sliceL cs endP (min cs.length (endP + 25)))
  if testSearch countLeft1M left then true
  else if testSearch countLeft2M left && !((countRightM right 0).isEmpty) then true
  else if testSearch countLeft3M left then true
  else false

/-- The `NAME_STOPWORDS` keys, in source order. -/
def NAME_STOPWORDS : List (List Char) :=
  [("DAY"), ("DAYS"), ("TODAY"), ("TOMORROW"), ("YESTERDAY"),
   ("WEEK"), ("WEEKS"), ("MONTH"), ("MONTHS"), ("YEAR"), ("YEARS"),
   ("INSPECTION"), ("INSPECTIONS"), ("DUE"), ("NEXT"), ("DONE"),
   ("COMPLETED"), ("PENDING"), ("OVERDUE"), ("SCHEDULED"),
   ("LOCO"), ("LOCOMOTIVE"), ("UNIT"), ("ENGINE"), ("UNITS"), ("ENGINES"),
   ("PLEASE"), ("PLS"), ("PLZ"), ("THANKS"), ("THANK"), ("THANKYOU"),
   ("WITH"), ("AND"), ("VS"), ("OR"), ("COMPARED"), ("TO"),
   ("FOR"), ("FROM"), ("BY"), ("AT"), ("ON"), ("OF"),
   ("IN"), ("IS"), ("ARE"), ("WAS"), ("WERE"), ("BE"), ("BEEN"),
   ("THE"), ("A"), ("AN"), ("THIS"), ("THAT"), ("THESE"), ("THOSE"),
   ("HOW"), ("WHAT"), ("WHEN"), ("WHERE"), ("WHY"), ("WHO"), ("WHICH"),
   ("CAN"), ("COULD"), ("WILL"), ("WOULD"), ("SHOULD"), ("MAY"), ("MIGHT"),
   ("DO"), ("DOES"), ("DID"), ("HAVE"), ("HAS"), ("HAD"),
   ("GET"), ("FIND"), ("SHOW"), ("LIST"), ("GIVE"), ("TELL")].map String.data

/-- The `isStopword(word)` (the caller upper-cases first, as in the source). -/
def isStopword (w : List Char) : Bool := NAME_STOPWORDS.contains w

/-- The `hasDomainContext(input)`. -/
def hasDomainContext (cs : List Char) : Bool := testSearch domainM cs

/-- The `/[0-9\-\/]/.test(t)` combined with the all-caps test, the
"model-ish" check used in `extractNames`. -/
def modelish (t : List Char) : Bool :=
  t.any (fun c => isDigitC c || (c == '-') || (c == '/')) ||
  ((2 ≤ t.length) && (t == toUpperL t))

/-! Data model -/

inductive Confidence where
  | low
  | medium
  | high
deriving DecidableEq

inductive RawMatchKind where
  | assetId
  | locoNo
  | name
deriving DecidableEq

/-- The `RawMatch` of the source.  `end` is a Lean keyword, so the exclusive
end index is called `endP`. -/
structure RawMatch where
  kind : RawMatchKind
  text : List Char
  start : Nat
  endP : Nat
deriving DecidableEq

/-- The `LocoQuery` record of the source.  JavaScript's possibly-undefined
convenience fields become `Option`s. -/
structure LocoQuery where
  input : List Char
  assetIds : List (List Char)
  locoNos : List (List Char)
  names : List (List Char)
  assetId : Option (List Char)
  locoNo : Option (List Char)
  name : Option (List Char)
  rawMatches : List RawMatch
  confidence : Confidence
deriving DecidableEq

/-! The extractAssetIds function -/

/-- The body of the `forEachMatch` callback in `extractAssetIds`: push the
lower-cased text and the raw match. -/
def assetStep (cs : List Char) (acc : List (List Char) × List RawMatch)
    (r : Nat × Nat × List Char) : List (List Char) × List RawMatch :=
  let text := sliceL cs r.1 (r.1 + r.2.1)
  (acc.1 ++ [toLowerL text],
   acc.2 ++ [⟨RawMatchKind.assetId, text, r.1, r.1 + text.length⟩])

def extractAssetIds (cs : List Char) : List (List Char) × List RawMatch :=
  let acc := (allMatches assetIdM cs).foldl (assetStep cs) ([], [])
  (uniq acc.1, acc.2)

/-! The extractLocoNos function -/

/-- One Phase 1a / 1b callback body: locate the captured digits inside the
full match (the source recovers the offset with
`full.toLowerCase().lastIndexOf(numText.toLowerCase())` and
`Math.max(0, numOffset)`), then push the number and its raw match unless
already present.  The source also records the number in a
`trustedFromKeyword` map, which is never read afterwards and is therefore
not modelled. -/
def phase1Step (cs : List Char) (acc : List (List Char) × List RawMatch)
    (r : Nat × Nat × List Char) : List (List Char) × List RawMatch :=
  let numText := r.2.2
  let full := sliceL cs r.1 (r.1 + r.2.1)
  let numOffset := lastIndexOfL (toLowerL full) (toLowerL numText)
  let start := r.1 + (max 0 numOffset).toNat
  let endP := start + numText.length
  if acc.1.contains numText then acc
  else (acc.1 ++ [numText],
        acc.2 ++ [⟨RawMatchKind.locoNo, numText, start, endP⟩])

/-- A Phase 2 candidate of `extractLocoNos`. -/
structure NumCand where
  numText : List Char
  start : Nat
  endP : Nat
  score : Nat
deriving DecidableEq

/-- The Phase 2 collection callback: skip numbers already captured in
Phase 1, apply the day-suffix, count-number and year rejections, then score
the candidate (+2 near a keyword, +1 for a `#` in the two preceding
characters, +1 for domain context). -/
def phase2Step (cs : List Char) (prior : List (List Char)) (hasDomain : Bool)
    (cands : List NumCand) (r : Nat × Nat × List Char) : List NumCand :=
  let numText := r.2.2
  let start := r.1
  let endP := start + numText.length
  if prior.contains numText then cands
  else if isFollowedByDayish cs endP then cands
  else if looksLikeCountNumber cs start endP then cands
  else if looksLikeYear (digitsToNat numText) then cands
  else
    let near := nearKeywords cs start endP 20
    let score := (if near then 2 else 0)
      + (if (sliceL cs (start - 2) start).contains '#' then 1 else 0)
      + (if hasDomain then 1 else 0)
    cands ++ [⟨numText, start, endP, score⟩]

/-- The Phase 2 acceptance step of `extractLocoNos`: the source accepts the
single remaining candidate when its score is at least 1, and otherwise
filters all candidates by `score >= 1` (so a lone candidate with score 0
falls into the filter branch and is dropped). -/
def phase2Accept (cands : List NumCand) : List NumCand :=
  match cands with
  | [c] => if 1 ≤ c.score then [c] else []
  | _ => cands.filter (fun c => 1 ≤ c.score)

def extractLocoNos (cs : List Char) : List (List Char) × List RawMatch :=
  let hasDomain := hasDomainContext cs
  let acc1 := (allMatches kwNumberM cs).foldl (phase1Step cs) ([], [])
  let acc2 := (allMatches kwConcatM cs).foldl (phase1Step cs) acc1
  let cands := (allMatches locoNumberM cs).foldl
    (phase2Step cs acc2.1 hasDomain) []
  let accepted := phase2Accept cands
  (uniq (acc2.1 ++ accepted.map (fun c => c.numText)),
   acc2.2 ++ accepted.map
     (fun c => ⟨RawMatchKind.locoNo, c.numText, c.start, c.endP⟩))

/-! The extractNames function -/

/-- Phase 0 of `extractNames`: no-space compound names.  The normalized
`"<number> <model>"` phrase goes into `names`; the raw match keeps the
original unspaced text and span. -/
def nsPhase0Step (cs : List Char) (acc : List (List Char) × List RawMatch)
    (r : Nat × Nat × (List Char × List Char)) :
    List (List Char) × List RawMatch :=
  let numPart := r.2.2.1
  let modelPart := r.2.2.2
  let start := r.1
  let fullText := sliceL cs r.1 (r.1 + r.2.1)
  let endP := start + fullText.length
  if isStopword (toUpperL modelPart) then acc
  else if !(modelish modelPart) then acc
  else
    let normalizedPhrase := numPart ++ ' ' :: modelPart
    if acc.1.contains normalizedPhrase then acc
    else (acc.1 ++ [normalizedPhrase],
          acc.2 ++ [⟨RawMatchKind.name, fullText, start, endP⟩])

/-- The source's trailing-stopword pop: `while (tokens.length > 1 &&
isStopword(last)) tokens.pop()`.  The loop removes the maximal all-stopword
suffix of the tokens after the first; `dropTrailingStops` computes that
suffix removal recursively. -/
def dropTrailingStops : List (List Char) → List (List Char)
  | [] => []
  | t :: rest =>
      match dropTrailingStops rest with
      | [] => if isStopword (toUpperL t) then [] else [t]
      | r => t :: r

def popTrailingStop : List (List Char) → List (List Char)
  | [] => []
  | t :: rest => t :: dropTrailingStops rest

/-- Phase 1 of `extractNames`, name construction for one number match:
look ahead up to three tokens, reject a stopword second token, truncate at
the first stopword, require a model-ish later token, pop trailing
stopwords and require at least two tokens; `none` when any guard fires,
otherwise the phrase to push. -/
def nsPhase1Phrase (cs : List Char) (r : Nat × Nat × List Char) :
    Option (List Char) :=
  let numText := r.2.2
  let start := r.1
  let afterNum := cs.drop (start + numText.length)
  match matchAtHead afterPhraseM afterNum 0 with
  | none => none
  | some e =>
    let afterText := sliceL afterNum 0 e.1
    let tokens0 := splitWsL (jsTrim (numText ++ afterText))
    let second := toUpperL (tokens0.getD 1 [])
    if isStopword second then none
    else
      let tokens1 :=
        match (tokens0.drop 1).findIdx? (fun t => isStopword (toUpperL t)) with
        | some k => tokens0.take (k + 1)
        | none => tokens0
      if !((tokens1.drop 1).any modelish) then none
      else
        let tokens2 := popTrailingStop tokens1
        if tokens2.length < 2 then none
        else some (joinSpace tokens2)

/-- Phase 1 of `extractNames`: push the constructed phrase (when one is
built) and its raw match, whose end offset is the start plus the phrase
length, unless the phrase was already collected. -/
def nsPhase1Step (cs : List Char) (acc : List (List Char) × List RawMatch)
    (r : Nat × Nat × List Char) : List (List Char) × List RawMatch :=
  match nsPhase1Phrase cs r with
  | none => acc
  | some phrase =>
      if acc.1.contains phrase then acc
      else (acc.1 ++ [phrase],
            acc.2 ++ [⟨RawMatchKind.name, phrase, r.1, r.1 + phrase.length⟩])

/-- Phase 2 of `extractNames`: bare model tokens near a loco keyword that
are not stopwords, contain a digit, hyphen or slash, and are not a
substring of an already captured name. -/
def nsPhase2Step (cs : List Char) (acc : List (List Char) × List RawMatch)
    (r : Nat × Nat × List Char) : List (List Char) × List RawMatch :=
  let token := r.2.2
  let start := r.1
  let endP := start + token.length
  let upper := toUpperL token
  if isStopword upper then acc
  else if !(token.any (fun c => isDigitC c || (c == '-') || (c == '/'))) then acc
  else if !(nearKeywords cs start endP 25) then acc
  else if acc.1.any (fun n => containsSub n token) then acc
  else (acc.1 ++ [token],
        acc.2 ++ [⟨RawMatchKind.name, token, start, endP⟩])

def extractNames (cs : List Char) : List (List Char) × List RawMatch :=
  let acc0 := (allMatches nospaceM cs).foldl (nsPhase0Step cs) ([], [])
  let acc1 := (allMatches locoNumberStartM cs).foldl (nsPhase1Step cs) acc0
  let acc2 := (allMatches modelTokenM cs).foldl (nsPhase2Step cs) acc1
  (uniq acc2.1, acc2.2)

/-! Confidence, sorting and `extractLocoQuery` -/

/-- The `/^\d{3,5}\b/.test(name)`. -/
def startsWithLocoNum (name : List Char) : Bool :=
  !((numPrefixM name 0).isEmpty)

/-- The `computeConfidence`.  The source sets `hasNumberedName` with a loop
over `names` that stops at the first hit; that loop computes
`names.any startsWithLocoNum`. -/
def computeConfidence (assetIds locoNos names : List (List Char)) :
    Confidence :=
  if 0 < assetIds.length then Confidence.high
  else if 0 < locoNos.length then Confidence.medium
  else if 0 < names.length then
    (if names.any startsWithLocoNum then Confidence.medium else Confidence.low)
  else Confidence.low

/-- Stable insertion by start offset, the effect of JavaScript's stable
`sort((a, b) => a.start - b.start)`. -/
def insertByStart (x : RawMatch) : List RawMatch → List RawMatch
  | [] => [x]
  | y :: ys => if x.start < y.start then x :: y :: ys else y :: insertByStart x ys

def sortByStart : List RawMatch → List RawMatch
  | [] => []
  | x :: xs => insertByStart x (sortByStart xs)

def extractLocoQuery (input : String) : LocoQuery :=
  let cs := input.data
  let a := extractAssetIds cs
  let l := extractLocoNos cs
  let n := extractNames cs
  let rawMatches := sortByStart (a.2 ++ l.2 ++ n.2)
  let confidence := computeConfidence a.1 l.1 n.1
  { input := cs
    assetIds := a.1
    locoNos := l.1
    names := n.1
    assetId := a.1[0]?
    locoNo := l.1[0]?
    name := n.1[0]?
    rawMatches := rawMatches
    confidence := confidence }

/-! The resolver (modelled from the spec) -/

/-- A locomotive snapshot record, restricted to the fields the matching
rules read. -/
structure AssetRecord where
  assetId : List Char
  locoNo : List Char
  name : List Char
deriving DecidableEq

inductive ResolutionOutcome where
  | Resolved (r : AssetRecord)
  | Ambiguous (cands : List AssetRecord)
  | NeedsFollowup
deriving DecidableEq

/-- Modelled from the spec: the repository ships only the resolver
strategy document (`src/unnamed/part_002`), not resolver code, so the
resolver is taken from spec section 4.2: Rule A (direct assetId key
membership; one hit resolves, several are ambiguous, none falls through),
then Rule B (trim-normalized exact locoNo match), then Rule C
(case-insensitive exact name match), each with the same
one/several/none handling; the optional numeric-equality fallback and the
fuzzy Rule D are disabled by default per the spec, and every rule falling
through yields NeedsFollowup. -/
def resolve (assetIds locoNos names : List (List Char))
    (snapshot : List AssetRecord) : ResolutionOutcome :=
  let hitsA := snapshot.filter (fun r => assetIds.contains r.assetId)
  match hitsA with
  | [r] => ResolutionOutcome.Resolved r
  | _ :: _ :: _ => ResolutionOutcome.Ambiguous hitsA
  | [] =>
    let hitsB := snapshot.filter
      (fun r => locoNos.any (fun c => jsTrim c == jsTrim r.locoNo))
    match hitsB with
    | [r] => ResolutionOutcome.Resolved r
    | _ :: _ :: _ => ResolutionOutcome.Ambiguous hitsB
    | [] =>
      let hitsC := snapshot.filter
        (fun r => names.any
          (fun c => toLowerL (jsTrim c) == toLowerL (jsTrim r.name)))
      match hitsC with
      | [r] => ResolutionOutcome.Resolved r
      | _ :: _ :: _ => ResolutionOutcome.Ambiguous hitsC
      | [] => ResolutionOutcome.NeedsFollowup

/-! Well-formedness of extraction results, and matcher invariants -/

/-- No duplicate values (decidable formulation). -/
def nodupB : List (List Char) → Bool
  | [] => true
  | x :: xs => !(xs.contains x) && nodupB xs

/-- Sorted ascending by start offset (decidable formulation). -/
def sortedByStartB : List RawMatch → Bool
  | [] => true
  | [_] => true
  | a :: b :: rest => (a.start ≤ b.start) && sortedByStartB (b :: rest)

/-- The head of `l`, when any, starts no earlier than `a`. -/
def headLeB (a : RawMatch) : List RawMatch → Bool
  | [] => true
  | b :: _ => decide (a.start ≤ b.start)

/-- One raw match has a valid span inside an input of length `n`. -/
def matchOk (n : Nat) (m : RawMatch) : Bool :=
  (decide (m.start < m.endP)) && (decide (m.endP ≤ n))

/-- The well-formedness the spec asserts of every `ExtractionResult`:
duplicate-free candidate lists, in-range spans, matches sorted by start. -/
def wellFormedB (r : LocoQuery) : Bool :=
  nodupB r.assetIds && nodupB r.locoNos && nodupB r.names &&
  r.rawMatches.all (matchOk r.input.length) &&
  sortedByStartB r.rawMatches

/-- The snapshot of the spec's resolver-priority scenario: one record with
assetId "A", locoNo "4430", name "4430 SD70M"… -/
def demoRecA : AssetRecord :=
  ⟨("A").data, ("4430").data, ("4430 SD70M").data⟩

/-- …and a second unrelated record with locoNo "4430 " (trailing space)
but a different assetId. -/
def demoRecB : AssetRecord :=
  ⟨("B").data, ("4430 ").data, ("4430 GP38-2").data⟩

def demoSnapshot : List AssetRecord := [demoRecA, demoRecB]

/-- A matcher never moves backwards, and whenever it consumes anything the
end position stays inside the input. -/
def MonoM {α : Type} (m : M α) : Prop :=
  ∀ cs pos e a, (e, a) ∈ m cs pos → pos ≤ e ∧ (e ≤ cs.length ∨ e = pos)

/-- A matcher consumes at least `k` characters. -/
def ConsumesM {α : Type} (k : Nat) (m : M α) : Prop :=
  ∀ cs pos e a, (e, a) ∈ m cs pos → pos + k ≤ e

/-- Every Phase 2 candidate passed all four rejection guards: it was not
already captured by a keyword phase, is not followed by a day suffix, does
not read as a count/limit number, and does not fall in the calendar-year
band. -/
def phase2CandOk (cs : List Char) (prior : List (List Char)) (c : NumCand) :
    Bool :=
  !(prior.contains c.numText) && !(isFollowedByDayish cs c.endP) &&
  !(looksLikeCountNumber cs c.start c.endP) &&
  !(looksLikeYear (digitsToNat c.numText))

/-! Theorems -/

/-- Folding a step function preserves any invariant that each step
preserves for the elements actually folded over. -/
theorem foldl_pres_mem {β σ : Type} (P : σ → Prop) (step : σ → β → σ) :
    ∀ (ms : List β) (init : σ),
      (∀ acc b, b ∈ ms → P acc → P (step acc b)) → P init →
      P (ms.foldl step init) := by
  intro ms
  induction ms with
  | nil => intro init _ hi; exact hi
  | cons b rest ih =>
      intro init h hi
      exact ih (step init b)
        (fun acc x hx ha => h acc x (List.mem_cons_of_mem b hx) ha)
        (h init b (List.mem_cons_self b rest) hi)

/-- One Phase 2 collection step preserves the guard invariant: the only
candidate it can append has just passed all four rejection guards. -/
theorem phase2Step_ok (cs : List Char) (prior : List (List Char)) (hd : Bool)
    (acc : List NumCand) (r : Nat × Nat × List Char)
    (h : acc.all (phase2CandOk cs prior) = true) :
    (phase2Step cs prior hd acc r).all (phase2CandOk cs prior) = true := by
  by_cases h1 : r.2.2 ∈ prior
  case pos => simp [phase2Step, h1, h]
  case neg =>
    cases h2 : isFollowedByDayish cs (r.1 + r.2.2.length) with
    | true => simp [phase2Step, h1, h2, h]
    | false =>
      cases h3 : looksLikeCountNumber cs r.1 (r.1 + r.2.2.length) with
      | true => simp [phase2Step, h1, h2, h3, h]
      | false =>
        cases h4 : looksLikeYear (digitsToNat r.2.2) with
        | true => simp [phase2Step, h1, h2, h3, h4, h]
        | false =>
          simp [phase2Step, h1, h2, h3, h4, phase2CandOk,
            List.all_append, h]

/-- All candidates collected by the Phase 2 pass satisfy the guard
invariant. -/
theorem phase2_fold_ok (cs : List Char) (prior : List (List Char)) (hd : Bool)
    (ms : List (Nat × Nat × List Char)) :
    ((ms.foldl (phase2Step cs prior hd) []).all (phase2CandOk cs prior))
      = true := by
  refine foldl_pres_mem
    (fun cands => cands.all (phase2CandOk cs prior) = true)
    (phase2Step cs prior hd) ms [] ?_ rfl
  intro acc b _ ha
  exact phase2Step_ok cs prior hd acc b ha

/-- C3: the generic (Phase C) pass never collects a 3-to-5-digit token
whose numeric value lies in 1900..2099, whatever the prior keyword
captures and whether or not domain context is present; in particular
"Show inspections in 2024" yields an empty locoNos list. -/
theorem c3_phase_c_year_rejection :
    (∀ (cs : List Char) (prior : List (List Char)) (hd : Bool),
      (((allMatches locoNumberM cs).foldl (phase2Step cs prior hd) []).all
        (fun c => !(looksLikeYear (digitsToNat c.numText)))) = true) ∧
    (extractLocoQuery ("Show inspections in 2024")).locoNos = [] := by
  refine ⟨?_, by decide⟩
  intro cs prior hd
  have h := phase2_fold_ok cs prior hd (allMatches locoNumberM cs)
  rw [List.all_eq_true] at h ⊢
  intro c hc
  have h2 := h c hc
  simp only [phase2CandOk, Bool.and_eq_true] at h2
  exact h2.2

/-- A Phase 1 step never removes an already collected number. -/
theorem phase1Step_subset (cs : List Char) (acc : List (List Char) × List RawMatch)
    (r : Nat × Nat × List Char) (x : List Char) (hx : x ∈ acc.1) :
    x ∈ (phase1Step cs acc r).1 := by
  by_cases hc : r.2.2 ∈ acc.1
  · simpa [phase1Step, hc] using hx
  · simp only [phase1Step]
    simp [hc]
    exact Or.inl hx

/-- After a Phase 1 step the processed number is present. -/
theorem phase1Step_new (cs : List Char) (acc : List (List Char) × List RawMatch)
    (r : Nat × Nat × List Char) : r.2.2 ∈ (phase1Step cs acc r).1 := by
  by_cases hc : r.2.2 ∈ acc.1
  · simp [phase1Step, hc]
  · simp [phase1Step, hc]

/-- Folding Phase 1 steps keeps every number present initially. -/
theorem phase1_fold_subset (cs : List Char) (ms : List (Nat × Nat × List Char))
    (init : List (List Char) × List RawMatch) (x : List Char) (hx : x ∈ init.1) :
    x ∈ (ms.foldl (phase1Step cs) init).1 :=
  foldl_pres_mem (fun acc => x ∈ acc.1) (phase1Step cs) ms init
    (fun acc b _ h => phase1Step_subset cs acc b x h) hx

/-- Every number processed by a Phase 1 fold ends up collected. -/
theorem phase1_fold_mem (cs : List Char) (ms : List (Nat × Nat × List Char)) :
    ∀ (init : List (List Char) × List RawMatch), ∀ r ∈ ms,
      r.2.2 ∈ (ms.foldl (phase1Step cs) init).1 := by
  induction ms with
  | nil => intro init r hr; cases hr
  | cons b rest ih =>
      intro init r hr
      rcases List.mem_cons.mp hr with h | h
      · subst h
        exact phase1_fold_subset cs rest (phase1Step cs init r) r.2.2
          (phase1Step_new cs init r)
      · exact ih (phase1Step cs init b) r h

/-- The `uniq` keeps every value of its argument (and of the accumulator). -/
theorem uniqAux_mem : ∀ (l out : List (List Char)) (x : List Char),
    (x ∈ l ∨ x ∈ out) → x ∈ uniqAux l out := by
  intro l
  induction l with
  | nil =>
      intro out x h
      rcases h with h | h
      · cases h
      · simpa [uniqAux] using h
  | cons v rest ih =>
      intro out x h
      by_cases hc : v ∈ out
      · have hm : x ∈ rest ∨ x ∈ out := by
          rcases h with h | h
          · rcases List.mem_cons.mp h with rfl | h
            · exact Or.inr hc
            · exact Or.inl h
          · exact Or.inr h
        simpa [uniqAux, hc] using ih out x hm
      · have hm : x ∈ rest ∨ x ∈ out ++ [v] := by
          rcases h with h | h
          · rcases List.mem_cons.mp h with rfl | h
            · exact Or.inr (List.mem_append_right out (by simp))
            · exact Or.inl h
          · exact Or.inr (List.mem_append_left _ h)
        simpa [uniqAux, hc] using ih (out ++ [v]) x hm

theorem uniq_mem (l : List (List Char)) (x : List Char) (h : x ∈ l) :
    x ∈ uniq l :=
  uniqAux_mem l [] x (Or.inl h)

/-- Every number captured by the Phase 1a keyword regex is in the final
locoNos list. -/
theorem extractLocoNos_mem_kw (cs : List Char) :
    ∀ r ∈ allMatches kwNumberM cs, r.2.2 ∈ (extractLocoNos cs).1 := by
  intro r hr
  have h1 : r.2.2 ∈ ((allMatches kwNumberM cs).foldl (phase1Step cs) ([], [])).1 :=
    phase1_fold_mem cs (allMatches kwNumberM cs) ([], []) r hr
  have h2 : r.2.2 ∈ ((allMatches kwConcatM cs).foldl (phase1Step cs)
      ((allMatches kwNumberM cs).foldl (phase1Step cs) ([], []))).1 :=
    phase1_fold_subset cs (allMatches kwConcatM cs) _ r.2.2 h1
  exact uniq_mem _ r.2.2 (List.mem_append_left _ h2)

/-- C4: every 3-to-5-digit number matched by the keyword-anchored Phase A
regex (keyword, optional no./number, optional separator, digits) is
accepted into locoNos unconditionally; in particular "loco 4430 SD70M"
yields locoNos = ["4430"] and a name "4430 SD70M". -/
theorem c4_keyword_phase_unconditional :
    (∀ input : String,
      ((allMatches kwNumberM (input.data)).all
        (fun r => ((extractLocoQuery input).locoNos).contains r.2.2)) = true) ∧
    (extractLocoQuery ("loco 4430 SD70M")).locoNos = [("4430").data] ∧
    ((extractLocoQuery ("loco 4430 SD70M")).names).contains
      (("4430 SD70M").data) = true := by
  refine ⟨?_, by decide, by decide⟩
  intro input
  rw [List.all_eq_true]
  intro r hr
  have h := extractLocoNos_mem_kw input.data r hr
  simpa using h

/-- C7: the generic (Phase C) pass never collects a 3-to-5-digit token
that is immediately followed by a day-suffix pattern; in particular on
"locomotive had 368 days out of service" the number "368" is not in
locoNos. -/
theorem c7_day_suffix_rejection :
    (∀ (cs : List Char) (prior : List (List Char)) (hd : Bool),
      (((allMatches locoNumberM cs).foldl (phase2Step cs prior hd) []).all
        (fun c => !(isFollowedByDayish cs c.endP))) = true) ∧
    ((extractLocoQuery
        ("locomotive had 368 days out of service")).locoNos).contains
      (("368").data) = false := by
  refine ⟨?_, by decide⟩
  intro cs prior hd
  have h := phase2_fold_ok cs prior hd (allMatches locoNumberM cs)
  rw [List.all_eq_true] at h ⊢
  intro c hc
  have h2 := h c hc
  simp only [phase2CandOk, Bool.and_eq_true] at h2
  exact h2.1.1.2

/-- The confidence computation as a function of the three candidate lists
agrees case by case with the decision tree the spec describes. -/
theorem computeConfidence_cases (a l n : List (List Char)) :
    computeConfidence a l n =
      (if a ≠ [] then Confidence.high
       else if l ≠ [] then Confidence.medium
       else if (n ≠ [] ∧ n.any startsWithLocoNum = true) then Confidence.medium
       else Confidence.low) := by
  cases a with
  | cons x xs => simp [computeConfidence]
  | nil =>
    cases l with
    | cons x xs => simp [computeConfidence]
    | nil =>
      cases n with
      | nil => simp [computeConfidence]
      | cons x xs =>
        by_cases h : (x :: xs).any startsWithLocoNum = true
        · simp [computeConfidence, h]
        · simp [computeConfidence, h]

/-- C1: for every input string, the confidence of `extractLocoQuery` is
the pure function of the three candidate lists the spec describes:
non-empty assetIds give high; otherwise non-empty locoNos give medium;
otherwise a non-empty names list containing a name that begins with a
3-to-5-digit number at a word boundary gives medium; everything else
(including the empty input) gives low. -/
theorem c1_confidence_pure_function (input : String) :
    (extractLocoQuery input).confidence =
      (if (extractLocoQuery input).assetIds ≠ [] then Confidence.high
       else if (extractLocoQuery input).locoNos ≠ [] then Confidence.medium
       else if ((extractLocoQuery input).names ≠ [] ∧
           (extractLocoQuery input).names.any startsWithLocoNum = true) then
         Confidence.medium
       else Confidence.low) := by
  have hconf : (extractLocoQuery input).confidence
      = computeConfidence (extractLocoQuery input).assetIds
          (extractLocoQuery input).locoNos (extractLocoQuery input).names := rfl
  rw [hconf, computeConfidence_cases]

/-- C2: the Phase C acceptance step keeps exactly the candidates of score
at least 1 — including the single-survivor branch, so a bare number with
zero supporting signal is never accepted — and on "When is 4430 due
next?" the extractor returns locoNos = ["4430"], names = [] and medium
confidence (the domain-context words supply the +1). -/
theorem c2_generic_pass_score_threshold :
    (∀ cands : List NumCand,
        phase2Accept cands = cands.filter (fun c => 1 ≤ c.score)) ∧
    (extractLocoQuery ("When is 4430 due next?")).locoNos = [("4430").data] ∧
    (extractLocoQuery ("When is 4430 due next?")).names = [] ∧
    (extractLocoQuery ("When is 4430 due next?")).confidence =
      Confidence.medium := by
  refine ⟨?_, by decide, by decide, by decide⟩
  intro cands
  match cands with
  | [] => rfl
  | [c] =>
      by_cases h : 1 ≤ c.score
      · simp [phase2Accept, List.filter, h]
      · simp [phase2Accept, List.filter, h]
  | a :: b :: rest => rfl

/-- C5: on the spec's two-record snapshot, resolving an extraction that
carries both assetIds = ["A"] and locoNos = ["4430"] is Resolved to the
record with assetId "A" (Rule A applies first), even though the trimmed
locoNo of the other record also matches "4430". -/
theorem c5_resolver_assetid_priority :
    resolve [("A").data] [("4430").data] [] demoSnapshot =
      ResolutionOutcome.Resolved demoRecA ∧
    demoRecA.assetId = ("A").data ∧
    (demoSnapshot.any (fun r =>
      (r.assetId != ("A").data) &&
      (jsTrim r.locoNo == jsTrim (("4430").data)))) = true := by
  decide

/-- C6: on "Status for 4430SD70M" the no-space compound is split into the
normalized name "4430 SD70M", the raw match keeps the original unspaced
text "4430SD70M" with its span [11, 20), and locoNos stays empty because
the digit run glued to letters never matches the standalone
`\b\d{3,5}\b` token pattern. -/
theorem c6_nospace_compound_split :
    (extractLocoQuery ("Status for 4430SD70M")).names =
      [("4430 SD70M").data] ∧
    (extractLocoQuery ("Status for 4430SD70M")).locoNos = [] ∧
    (extractLocoQuery ("Status for 4430SD70M")).rawMatches =
      [⟨RawMatchKind.name, ("4430SD70M").data, 11, 20⟩] := by
  refine ⟨by decide, by decide, by decide⟩

/-- Past the end of the input, `exec` finds nothing. -/
theorem execFromAux_none {α : Type} (m : M α) (cs : List Char) (fuel li : Nat)
    (h : cs.length < li) : execFromAux m cs fuel li = none := by
  cases fuel with
  | zero => rfl
  | succ f => simp [execFromAux, h]

/-- A successful `exec` finds its match at or after the scan position and
inside the input. -/
theorem execFromAux_some {α : Type} (m : M α) (cs : List Char) :
    ∀ (fuel li i len : Nat) (a : α),
      execFromAux m cs fuel li = some (i, len, a) →
      li ≤ i ∧ i ≤ cs.length := by
  intro fuel
  induction fuel with
  | zero => intro li i len a h; simp [execFromAux] at h
  | succ f ih =>
      intro li i len a h
      by_cases hb : cs.length < li
      · simp [execFromAux, hb] at h
      · simp only [execFromAux] at h
        rw [if_neg hb] at h
        cases hh : (m cs li).head? with
        | some r =>
            rw [hh] at h
            have h1 : li = i := by
              have := Option.some.inj h
              exact congrArg Prod.fst this
            omega
        | none =>
            rw [hh] at h
            have := ih (li + 1) i len a h
            omega

/-- The scan loop is insensitive to extra fuel once the fuel covers the
remaining positions: with forward progress guaranteed, `cs.length + 2`
iterations always reach the fixpoint. -/
theorem forEachMatchAux_congr {α : Type} (m : M α) (cs : List Char) :
    ∀ (f1 f2 li : Nat),
      cs.length + 2 - li ≤ f1 → cs.length + 2 - li ≤ f2 →
      forEachMatchAux m cs f1 li = forEachMatchAux m cs f2 li := by
  intro f1
  induction f1 with
  | zero =>
      intro f2 li h1 _
      have hli : cs.length < li := by omega
      have hnone : execFrom m cs li = none := execFromAux_none m cs _ li hli
      cases f2 with
      | zero => rfl
      | succ f => simp [forEachMatchAux, hnone]
  | succ f ih =>
      intro f2 li h1 h2
      cases f2 with
      | zero =>
          have hli : cs.length < li := by omega
          have hnone : execFrom m cs li = none := execFromAux_none m cs _ li hli
          simp [forEachMatchAux, hnone]
      | succ f2' =>
          simp only [forEachMatchAux]
          cases hx : execFrom m cs li with
          | none => rfl
          | some t =>
              obtain ⟨i, len, a⟩ := t
              have hse := execFromAux_some m cs (cs.length + 2) li i len a hx
              have hnext : li < nextLastIndex i len := by
                unfold nextLastIndex
                split <;> omega
              exact congrArg (fun tl => (i, len, a) :: tl)
                (ih f2' (nextLastIndex i len) (by omega) (by omega))

/-- C9: every scanning loop makes forward progress — the next scan
position after any match, including a zero-width one (where the matching
primitive explicitly advances), is strictly larger — and consequently the
bounded scan `forEachMatchAux` with fuel `length + 2` has already reached
its fixpoint: adding fuel never changes the result, so no regex pass can
loop forever and `extractLocoQuery` terminates on every input. -/
theorem c9_scan_progress_and_termination :
    (∀ (α : Type) (m : M α) (cs : List Char) (li : Nat),
      ((execFrom m cs li).all
        (fun r => Nat.blt li (nextLastIndex r.1 r.2.1))) = true) ∧
    (∀ (α : Type) (m : M α) (cs : List Char) (li k : Nat),
      forEachMatchAux m cs (cs.length + 2 + k) li =
        forEachMatchAux m cs (cs.length + 2) li) := by
  constructor
  · intro α m cs li
    cases hx : execFrom m cs li with
    | none => rfl
    | some t =>
        obtain ⟨i, len, a⟩ := t
        have hse := execFromAux_some m cs (cs.length + 2) li i len a hx
        simp only [Option.all_some]
        have hlt : li < nextLastIndex i len := by
          unfold nextLastIndex
          split <;> omega
        simpa [Nat.blt_eq] using hlt
  · intro α m cs li k
    exact forEachMatchAux_congr m cs (cs.length + 2 + k) (cs.length + 2) li
      (by omega) (by omega)

/-- C10: the record returned by `extractLocoQuery` carries singular
convenience fields equal to the first element of the corresponding list,
undefined (none) exactly when that list is empty. -/
theorem c10_singular_convenience_fields (input : String) :
    (extractLocoQuery input).assetId = (extractLocoQuery input).assetIds.head? ∧
    (extractLocoQuery input).locoNo = (extractLocoQuery input).locoNos.head? ∧
    (extractLocoQuery input).name = (extractLocoQuery input).names.head? ∧
    (extractLocoQuery input).assetId.isNone =
      (extractLocoQuery input).assetIds.isEmpty ∧
    (extractLocoQuery input).locoNo.isNone =
      (extractLocoQuery input).locoNos.isEmpty ∧
    (extractLocoQuery input).name.isNone =
      (extractLocoQuery input).names.isEmpty := by
  have hhead : ∀ (l : List (List Char)), l[0]? = l.head? := by
    intro l; cases l <;> simp
  have hnone : ∀ (l : List (List Char)), l.head?.isNone = l.isEmpty := by
    intro l; cases l <;> rfl
  have h1 : (extractLocoQuery input).assetId =
      (extractLocoQuery input).assetIds[0]? := rfl
  have h2 : (extractLocoQuery input).locoNo =
      (extractLocoQuery input).locoNos[0]? := rfl
  have h3 : (extractLocoQuery input).name =
      (extractLocoQuery input).names[0]? := rfl
  refine ⟨h1.trans (hhead _), h2.trans (hhead _), h3.trans (hhead _), ?_, ?_, ?_⟩
  · rw [h1, hhead, hnone]
  · rw [h2, hhead, hnone]
  · rw [h3, hhead, hnone]

/-! Matcher bound lemmas (towards the well-formedness claim) -/

theorem head?_mem {α : Type} {l : List α} {x : α} (h : l.head? = some x) :
    x ∈ l := by
  cases l with
  | nil => cases h
  | cons y ys =>
      have : y = x := by simpa using h
      subst this
      exact List.mem_cons_self y ys

theorem mem_mbind {α β : Type} {m : M α} {k : α → M β} {cs : List Char}
    {pos : Nat} {r : Nat × β} :
    r ∈ mbind m k cs pos ↔ ∃ t ∈ m cs pos, r ∈ k t.2 cs t.1 := by
  simp [mbind, List.mem_flatMap]

theorem mem_mpure {α : Type} {a : α} {cs : List Char} {pos : Nat}
    {r : Nat × α} (h : r ∈ mpure a cs pos) : r = (pos, a) := by
  simpa [mpure] using h

theorem mem_mbound {cs : List Char} {pos : Nat} {r : Nat × Unit}
    (h : r ∈ mbound cs pos) : r.1 = pos := by
  unfold mbound at h
  split at h
  · simp at h
    simp [h]
  · cases h

theorem mem_mchar {p : Char → Bool} {cs : List Char} {pos : Nat}
    {r : Nat × Char} (h : r ∈ mchar p cs pos) :
    r.1 = pos + 1 ∧ pos < cs.length := by
  unfold mchar at h
  cases hx : cs[pos]? with
  | none => rw [hx] at h; cases h
  | some c =>
      rw [hx] at h
      have hlt : pos < cs.length := by
        by_contra hge
        rw [List.getElem?_eq_none (by omega)] at hx
        cases hx
      split at h
      · simp at h
        exact ⟨by simp [h], hlt⟩
      · cases h

theorem mem_mlitBy {f : Char → Char} {s : String} {cs : List Char}
    {pos : Nat} {r : Nat × Unit} (h : r ∈ mlitBy f s cs pos) :
    r.1 = pos + s.length ∧ (s.length = 0 ∨ pos + s.length ≤ cs.length) := by
  unfold mlitBy at h
  split at h
  · rename_i heq
    have hr : r.1 = pos + s.length := by simp at h; simp [h]
    refine ⟨hr, ?_⟩
    have hlen : (sliceL cs pos (pos + s.length)).length = s.data.length := by
      have := congrArg List.length (by simpa using heq :
        (sliceL cs pos (pos + s.length)).map f = s.data)
      simpa using this
    have hslice : (sliceL cs pos (pos + s.length)).length =
        min (pos + s.length - pos) (cs.length - pos) := by
      simp [sliceL]
    have hsd : s.data.length = s.length := rfl
    rcases Nat.eq_zero_or_pos s.length with hz | hp
    · exact Or.inl hz
    · right
      rw [hslice, hsd] at hlen
      omega
  · cases h

theorem runLen_bound (p : Char → Bool) (cs : List Char) :
    ∀ (cap pos : Nat),
      runLen p cs pos cap = 0 ∨ pos + runLen p cs pos cap ≤ cs.length := by
  intro cap
  induction cap with
  | zero => intro pos; left; rfl
  | succ c ih =>
      intro pos
      cases hx : cs[pos]? with
      | none => left; simp [runLen, hx]
      | some ch =>
          by_cases hp : p ch = true
          · right
            have hlt : pos < cs.length := by
              by_contra hge
              rw [List.getElem?_eq_none (by omega)] at hx
              cases hx
            have hstep : runLen p cs pos (c + 1) =
                runLen p cs (pos + 1) c + 1 := by
              simp [runLen, hx, hp]
            rw [hstep]
            rcases ih (pos + 1) with h0 | hle
            · omega
            · omega
          · left
            simp [runLen, hx, hp]

theorem mem_mrep {p : Char → Bool} {lo hi : Nat} {cs : List Char}
    {pos : Nat} {r : Nat × List Char} (h : r ∈ mrep p lo hi cs pos) :
    ∃ k, lo ≤ k ∧ k ≤ runLen p cs pos hi ∧ r.1 = pos + k ∧
      r.2 = sliceL cs pos (pos + k) := by
  simp only [mrep, List.mem_map, List.mem_range] at h
  obtain ⟨j, hj, he⟩ := h
  refine ⟨runLen p cs pos hi - j, by omega, by omega, ?_, ?_⟩
  · rw [← he]
  · rw [← he]

/-- Consumed characters of a repetition stay inside the input. -/
theorem mem_mrep_le {p : Char → Bool} {lo hi : Nat} {cs : List Char}
    {pos : Nat} {r : Nat × List Char} (h : r ∈ mrep p lo hi cs pos) :
    pos ≤ r.1 ∧ (r.1 ≤ cs.length ∨ r.1 = pos) := by
  obtain ⟨k, hlo, hrun, he, -⟩ := mem_mrep h
  refine ⟨by omega, ?_⟩
  rcases Nat.eq_zero_or_pos k with hz | hp
  · right; omega
  · left
    rcases runLen_bound p cs hi pos with h0 | hle <;> omega

/-- The `MonoM` for each combinator. -/
theorem monoM_mpure {α : Type} (a : α) : MonoM (mpure a) := by
  intro cs pos e b h
  have := mem_mpure h
  simp at this
  omega

theorem monoM_mbound : MonoM mbound := by
  intro cs pos e a h
  have := mem_mbound h
  simp at this
  omega

theorem monoM_mend : MonoM mend := by
  intro cs pos e a h
  unfold mend at h
  split at h
  · simp at h
    omega
  · cases h

theorem monoM_mchar (p : Char → Bool) : MonoM (mchar p) := by
  intro cs pos e a h
  have := mem_mchar h
  simp at this
  omega

theorem monoM_mlitBy (f : Char → Char) (s : String) : MonoM (mlitBy f s) := by
  intro cs pos e a h
  have := mem_mlitBy h
  simp at this
  omega

theorem monoM_mrep (p : Char → Bool) (lo hi : Nat) : MonoM (mrep p lo hi) := by
  intro cs pos e a h
  have := mem_mrep_le h
  simpa using this

theorem monoM_mstar (p : Char → Bool) : MonoM (mstar p) := by
  intro cs pos e a h
  exact monoM_mrep p 0 cs.length cs pos e a h

theorem monoM_mplus (p : Char → Bool) : MonoM (mplus p) := by
  intro cs pos e a h
  exact monoM_mrep p 1 cs.length cs pos e a h

theorem monoM_mopt {α : Type} (m : M α) (hm : MonoM m) : MonoM (mopt m) := by
  intro cs pos e a h
  simp only [mopt, List.mem_append, List.mem_map] at h
  rcases h with ⟨t, ht, he⟩ | h
  · have hmono := hm cs pos t.1 t.2 ht
    have h1 : t.1 = e := by
      have := congrArg Prod.fst he
      simpa using this
    omega
  · simp at h
    omega

theorem monoM_malt {α : Type} (ms : List (M α)) (h : ∀ m ∈ ms, MonoM m) :
    MonoM (malt ms) := by
  intro cs pos e a hmem
  simp only [malt, List.mem_flatMap] at hmem
  obtain ⟨m, hm, hmem⟩ := hmem
  exact h m hm cs pos e a hmem

theorem monoM_mbind {α β : Type} (m : M α) (k : α → M β) (hm : MonoM m)
    (hk : ∀ a, MonoM (k a)) : MonoM (mbind m k) := by
  intro cs pos e a h
  obtain ⟨t, ht, h2⟩ := mem_mbind.mp h
  have f1 := hm cs pos t.1 t.2 ht
  have f2 := hk t.2 cs t.1 e a h2
  omega

theorem monoM_mreps (m : M Unit) (hm : MonoM m) : ∀ n, MonoM (mreps m n) := by
  intro n
  induction n with
  | zero => exact monoM_mpure ()
  | succ k ih =>
      refine monoM_malt _ ?_
      intro x hx
      simp only [List.mem_cons, List.mem_singleton] at hx
      rcases hx with rfl | hx
      · exact monoM_mbind _ _ hm (fun _ => ih)
      · simp at hx
        subst hx
        exact monoM_mpure ()

theorem sliceL_length (cs : List Char) (a b : Nat) :
    (sliceL cs a b).length = min (b - a) (cs.length - a) := by
  simp [sliceL]

theorem runLen_le_cap (p : Char → Bool) (cs : List Char) :
    ∀ (cap pos : Nat), runLen p cs pos cap ≤ cap := by
  intro cap
  induction cap with
  | zero => intro pos; exact Nat.le_refl 0
  | succ c ih =>
      intro pos
      cases hx : cs[pos]? with
      | none => simp [runLen, hx]
      | some ch =>
          by_cases hp : p ch = true
          · have hstep : runLen p cs pos (c + 1) =
                runLen p cs (pos + 1) c + 1 := by
              simp [runLen, hx, hp]
            rw [hstep]
            exact Nat.succ_le_succ (ih (pos + 1))
          · simp [runLen, hx, hp]

/-- The `MonoM` for each composite prefix used before the digit tail. -/
theorem monoM_kwAltM : MonoM kwAltM := by
  refine monoM_malt _ ?_
  intro x hx
  simp [kwAltM] at hx
  rcases hx with rfl | rfl | rfl | rfl | rfl | rfl | rfl <;>
    exact monoM_mlitBy _ _

theorem monoM_kwSepM : MonoM kwSepM := by
  refine monoM_mbind _ _ (monoM_mstar _) (fun _ => ?_)
  refine monoM_mbind _ _ (monoM_mopt _ ?_) (fun _ => ?_)
  · refine monoM_malt _ ?_
    intro x hx
    simp at hx
    rcases hx with rfl | rfl
    · exact monoM_mbind _ _ (monoM_mlitBy _ _)
        (fun _ => monoM_mbind _ _ (monoM_mopt _ (monoM_mlitBy _ _))
          (fun _ => monoM_mpure _))
    · exact monoM_mlitBy _ _
  · refine monoM_mbind _ _ (monoM_mstar _) (fun _ => ?_)
    refine monoM_mbind _ _ (monoM_mopt _ (monoM_mchar _)) (fun _ => ?_)
    exact monoM_mbind _ _ (monoM_mstar _) (fun _ => monoM_mpure _)

theorem monoM_kwNumberPrefixM : MonoM kwNumberPrefixM := by
  refine monoM_mbind _ _ monoM_mbound (fun _ => ?_)
  refine monoM_mbind _ _ monoM_kwAltM (fun _ => ?_)
  exact monoM_mbind _ _ monoM_mbound (fun _ => monoM_kwSepM)

theorem monoM_kwConcatPrefixM : MonoM kwConcatPrefixM := by
  refine monoM_mbind _ _ monoM_mbound (fun _ => ?_)
  refine monoM_malt _ ?_
  intro x hx
  simp at hx
  rcases hx with rfl | rfl | rfl | rfl <;> exact monoM_mlitBy _ _

/-- The digit tail `(\d{3,5})\b`: its capture is exactly the consumed
digits, at least three of them, and the match ends inside the input. -/
theorem numTailM_mem {cs : List Char} {pos e : Nat} {cap : List Char}
    (h : (e, cap) ∈ numTailM cs pos) :
    e = pos + cap.length ∧ 3 ≤ cap.length ∧ e ≤ cs.length := by
  obtain ⟨t, ht, h2⟩ := mem_mbind.mp h
  obtain ⟨t2, ht2, h3⟩ := mem_mbind.mp h2
  have hb := mem_mbound ht2
  have hp := mem_mpure h3
  have h4 := congrArg Prod.fst hp
  have h5 := congrArg Prod.snd hp
  simp at h4 h5
  obtain ⟨k, hlo, hrun, he1, hcap⟩ := mem_mrep ht
  have hbound : pos + k ≤ cs.length := by
    rcases runLen_bound isDigitC cs 5 pos with h0 | hle <;> omega
  have hcl : cap.length = k := by
    rw [h5, hcap, sliceL_length]
    omega
  omega

theorem kwNumberM_facts {cs : List Char} {pos e : Nat} {cap : List Char}
    (h : (e, cap) ∈ kwNumberM cs pos) :
    3 ≤ cap.length ∧ pos + cap.length ≤ e ∧ e ≤ cs.length := by
  obtain ⟨t, ht, h2⟩ := mem_mbind.mp h
  have hm := monoM_kwNumberPrefixM cs pos t.1 t.2 ht
  have hn := numTailM_mem h2
  omega

theorem kwConcatM_facts {cs : List Char} {pos e : Nat} {cap : List Char}
    (h : (e, cap) ∈ kwConcatM cs pos) :
    3 ≤ cap.length ∧ pos + cap.length ≤ e ∧ e ≤ cs.length := by
  obtain ⟨t, ht, h2⟩ := mem_mbind.mp h
  have hm := monoM_kwConcatPrefixM cs pos t.1 t.2 ht
  have hn := numTailM_mem h2
  omega

theorem locoNumberM_facts {cs : List Char} {pos e : Nat} {cap : List Char}
    (h : (e, cap) ∈ locoNumberM cs pos) :
    e = pos + cap.length ∧ 3 ≤ cap.length ∧ e ≤ cs.length := by
  obtain ⟨t, ht, h2⟩ := mem_mbind.mp h
  have hb := mem_mbound ht
  have hn := numTailM_mem h2
  omega

theorem locoNumberStartM_eq : locoNumberStartM = locoNumberM := rfl

theorem assetIdM_facts {cs : List Char} {pos e : Nat} {cap : List Char}
    (h : (e, cap) ∈ assetIdM cs pos) :
    e = pos + 24 ∧ e ≤ cs.length := by
  obtain ⟨t, ht, h2⟩ := mem_mbind.mp h
  have hb := mem_mbound ht
  obtain ⟨t2, ht2, h3⟩ := mem_mbind.mp h2
  obtain ⟨t3, ht3, h4⟩ := mem_mbind.mp h3
  have hb3 := mem_mbound ht3
  have hp := mem_mpure h4
  have h5 := congrArg Prod.fst hp
  simp at h5
  obtain ⟨k, hlo, hrun, he1, -⟩ := mem_mrep ht2
  have hle : runLen isHexCI cs t.1 24 ≤ 24 := runLen_le_cap isHexCI cs 24 t.1
  have hbound : t.1 + k ≤ cs.length := by
    rcases runLen_bound isHexCI cs 24 t.1 with h0 | hb2 <;> omega
  omega

theorem modelTokenM_facts {cs : List Char} {pos e : Nat} {cap : List Char}
    (h : (e, cap) ∈ modelTokenM cs pos) :
    pos + 3 ≤ e ∧ e ≤ cs.length ∧ e = pos + cap.length := by
  obtain ⟨t, ht, h2⟩ := mem_mbind.mp h
  have hb := mem_mbound ht
  obtain ⟨t2, ht2, h3⟩ := mem_mbind.mp h2
  have hc := mem_mchar ht2
  obtain ⟨t3, ht3, h4⟩ := mem_mbind.mp h3
  obtain ⟨t4, ht4, h5⟩ := mem_mbind.mp h4
  have hb4 := mem_mbound ht4
  have hp := mem_mpure h5
  have h6 := congrArg Prod.fst hp
  have h7 := congrArg Prod.snd hp
  simp at h6 h7
  obtain ⟨k, hlo, hrun, he1, hsl⟩ := mem_mrep ht3
  have hbound : t2.1 + k ≤ cs.length := by
    rcases runLen_bound isModelC cs 15 t2.1 with h0 | hb2 <;> omega
  have hcl : cap.length = 1 + k := by
    rw [h7]
    simp only [List.length_cons]
    rw [hsl, sliceL_length]
    omega
  omega

theorem nospaceM_facts {cs : List Char} {pos e : Nat}
    {cap : List Char × List Char} (h : (e, cap) ∈ nospaceM cs pos) :
    pos + 6 ≤ e ∧ e ≤ cs.length := by
  obtain ⟨t, ht, h2⟩ := mem_mbind.mp h
  have hb := mem_mbound ht
  obtain ⟨t2, ht2, h3⟩ := mem_mbind.mp h2
  obtain ⟨k1, hlo1, hrun1, he1, -⟩ := mem_mrep ht2
  obtain ⟨t3, ht3, h4⟩ := mem_mbind.mp h3
  have hc := mem_mchar ht3
  obtain ⟨t4, ht4, h5⟩ := mem_mbind.mp h4
  obtain ⟨k2, hlo2, hrun2, he2, -⟩ := mem_mrep ht4
  obtain ⟨t5, ht5, h6⟩ := mem_mbind.mp h5
  have hb5 := mem_mbound ht5
  have hp := mem_mpure h6
  have h7 := congrArg Prod.fst hp
  simp at h7
  have hbound : t3.1 + k2 ≤ cs.length := by
    rcases runLen_bound isNameC cs 15 t3.1 with h0 | hb2 <;> omega
  omega

theorem wsTokM_facts {hc : Char → Bool} {cs : List Char} {pos e : Nat}
    {a : Unit} (h : (e, a) ∈ wsTokM hc cs pos) :
    pos + 2 ≤ e ∧ e ≤ cs.length := by
  obtain ⟨t, ht, h2⟩ := mem_mbind.mp h
  obtain ⟨k1, hlo1, hrun1, he1, -⟩ := mem_mrep ht
  obtain ⟨t2, ht2, h3⟩ := mem_mbind.mp h2
  have hch := mem_mchar ht2
  obtain ⟨t3, ht3, h4⟩ := mem_mbind.mp h3
  obtain ⟨k2, hlo2, hrun2, he2, -⟩ := mem_mrep ht3
  have hp := mem_mpure h4
  have h5 := congrArg Prod.fst hp
  simp at h5
  have hbound2 : t2.1 + k2 ≤ cs.length ∨ k2 = 0 := by
    rcases runLen_bound isNameC cs cs.length t2.1 with h0 | hb2
    · right; omega
    · left; omega
  omega

theorem mreps_wsTok_facts {hc : Char → Bool} {n : Nat} {cs : List Char} :
    ∀ {p e : Nat} {a : Unit}, (e, a) ∈ mreps (wsTokM hc) n cs p →
      p ≤ e ∧ (e ≤ cs.length ∨ e = p) := by
  induction n with
  | zero =>
      intro p e a h
      have := mem_mpure h
      have h1 := congrArg Prod.fst this
      simp at h1
      omega
  | succ k ih =>
      intro p e a h
      simp only [mreps, malt, List.flatMap_cons, List.flatMap_nil,
        List.append_nil, List.mem_append] at h
      rcases h with h | h
      · obtain ⟨t, ht, h2⟩ := mem_mbind.mp h
        have h1 := wsTokM_facts ht
        have h3 := ih h2
        omega
      · have := mem_mpure h
        have h1 := congrArg Prod.fst this
        simp at h1
        omega

theorem afterPhraseM_facts {cs : List Char} {pos e : Nat} {a : Unit}
    (h : (e, a) ∈ afterPhraseM cs pos) :
    pos + 2 ≤ e ∧ e ≤ cs.length := by
  obtain ⟨t, ht, h2⟩ := mem_mbind.mp h
  have h1 := wsTokM_facts ht
  have h3 := mreps_wsTok_facts h2
  omega

/-- A successful `exec` selects a matcher result: the reported length is
the distance to some end position the matcher can reach. -/
theorem execFromAux_mem {α : Type} (m : M α) (cs : List Char) :
    ∀ (fuel li i len : Nat) (a : α),
      execFromAux m cs fuel li = some (i, len, a) →
      ∃ e, (e, a) ∈ m cs i ∧ len = e - i := by
  intro fuel
  induction fuel with
  | zero => intro li i len a h; simp [execFromAux] at h
  | succ f ih =>
      intro li i len a h
      by_cases hb : cs.length < li
      · simp [execFromAux, hb] at h
      · simp only [execFromAux] at h
        rw [if_neg hb] at h
        cases hh : (m cs li).head? with
        | some r =>
            rw [hh] at h
            have hr := head?_mem hh
            have h1 := Option.some.inj h
            have hi : li = i := congrArg (fun t => t.1) h1
            have hlen : r.1 - li = len := congrArg (fun t => t.2.1) h1
            have ha : r.2 = a := congrArg (fun t => t.2.2) h1
            subst ha
            subst hi
            exact ⟨r.1, by simpa using hr, hlen.symm⟩
        | none =>
            rw [hh] at h
            exact ih (li + 1) i len a h

/-- Any per-match consequence of the matcher transfers to every match the
scan loop collects. -/
theorem forEachMatchAux_post {α : Type} (m : M α) (cs : List Char)
    (Q : Nat → Nat → α → Prop)
    (hQ : ∀ pos e a, (e, a) ∈ m cs pos → pos ≤ cs.length → Q pos (e - pos) a) :
    ∀ (fuel li : Nat) (r : Nat × Nat × α),
      r ∈ forEachMatchAux m cs fuel li → Q r.1 r.2.1 r.2.2 := by
  intro fuel
  induction fuel with
  | zero => intro li r h; cases h
  | succ f ih =>
      intro li r h
      simp only [forEachMatchAux] at h
      cases hx : execFrom m cs li with
      | none => rw [hx] at h; cases h
      | some t =>
          rw [hx] at h
          obtain ⟨i, len, a⟩ := t
          rcases List.mem_cons.mp h with rfl | h2
          · have hse := execFromAux_some m cs (cs.length + 2) li i len a hx
            obtain ⟨e, hmem, hlen⟩ := execFromAux_mem m cs (cs.length + 2) li i len a hx
            have := hQ i e a hmem hse.2
            simpa [hlen] using this
          · exact ih (nextLastIndex i len) r h2

theorem allMatches_post {α : Type} (m : M α) (cs : List Char)
    (Q : Nat → Nat → α → Prop)
    (hQ : ∀ pos e a, (e, a) ∈ m cs pos → pos ≤ cs.length → Q pos (e - pos) a) :
    ∀ r ∈ allMatches m cs, Q r.1 r.2.1 r.2.2 := by
  intro r hr
  exact forEachMatchAux_post m cs Q hQ (cs.length + 2) 0 r hr

/-! Duplicate freedom, sorting and phrase-length lemmas -/

theorem nodupB_eq_nodup (l : List (List Char)) : nodupB l = true ↔ l.Nodup := by
  induction l with
  | nil => simp [nodupB]
  | cons x xs ih => simp [nodupB, ih, List.nodup_cons]

theorem uniqAux_nodup : ∀ (l out : List (List Char)), out.Nodup →
    (uniqAux l out).Nodup := by
  intro l
  induction l with
  | nil => intro out h; exact h
  | cons v rest ih =>
      intro out h
      by_cases hc : v ∈ out
      · simpa [uniqAux, hc] using ih out h
      · have happ : (out ++ [v]).Nodup := by
          refine List.Nodup.append h (List.nodup_singleton v) ?_
          intro a ha hav
          simp at hav
          subst hav
          exact hc ha
        simpa [uniqAux, hc] using ih (out ++ [v]) happ

theorem uniq_nodupB (l : List (List Char)) : nodupB (uniq l) = true :=
  (nodupB_eq_nodup _).mpr (uniqAux_nodup l [] List.nodup_nil)

theorem insertByStart_all (P : RawMatch → Bool) (x : RawMatch) :
    ∀ (l : List RawMatch), P x = true → l.all P = true →
      (insertByStart x l).all P = true := by
  intro l
  induction l with
  | nil => intro hx _; simp [insertByStart, hx]
  | cons y ys ih =>
      intro hx hl
      simp only [List.all_cons, Bool.and_eq_true] at hl
      by_cases hc : x.start < y.start
      · simp [insertByStart, hc, hx, hl.1, hl.2]
      · simp [insertByStart, hc, hl.1, ih hx hl.2]

theorem sortByStart_all (P : RawMatch → Bool) :
    ∀ (l : List RawMatch), l.all P = true → (sortByStart l).all P = true := by
  intro l
  induction l with
  | nil => intro h; exact h
  | cons x xs ih =>
      intro h
      simp only [List.all_cons, Bool.and_eq_true] at h
      exact insertByStart_all P x (sortByStart xs) h.1 (ih h.2)

theorem sortedByStartB_cons (a : RawMatch) (l : List RawMatch) :
    sortedByStartB (a :: l) = (headLeB a l && sortedByStartB l) := by
  cases l <;> simp [sortedByStartB, headLeB]

theorem headLeB_insert (y x : RawMatch) (ys : List RawMatch)
    (h1 : y.start ≤ x.start) (h2 : headLeB y ys = true) :
    headLeB y (insertByStart x ys) = true := by
  cases ys with
  | nil => simp [insertByStart, headLeB, h1]
  | cons z zs =>
      by_cases hc : x.start < z.start
      · simp [insertByStart, hc, headLeB, h1]
      · simpa [insertByStart, hc, headLeB] using h2

theorem insertByStart_sorted (x : RawMatch) :
    ∀ (l : List RawMatch), sortedByStartB l = true →
      sortedByStartB (insertByStart x l) = true := by
  intro l
  induction l with
  | nil => intro _; simp [insertByStart, sortedByStartB]
  | cons y ys ih =>
      intro h
      rw [sortedByStartB_cons] at h
      simp only [Bool.and_eq_true] at h
      by_cases hc : x.start < y.start
      · simp only [insertByStart, if_pos hc]
        rw [sortedByStartB_cons, sortedByStartB_cons]
        simp only [headLeB, Bool.and_eq_true]
        refine ⟨by simpa using Nat.le_of_lt hc, h.1, h.2⟩
      · simp only [insertByStart, if_neg hc]
        rw [sortedByStartB_cons]
        have hyx : y.start ≤ x.start := Nat.le_of_not_lt hc
        simp [headLeB_insert y x ys hyx h.1, ih h.2]

theorem sortByStart_sorted : ∀ (l : List RawMatch),
    sortedByStartB (sortByStart l) = true := by
  intro l
  induction l with
  | nil => rfl
  | cons x xs ih => exact insertByStart_sorted x (sortByStart xs) ih

theorem joinSpace_cons_length (t : List Char) (ts : List (List Char)) :
    (joinSpace (t :: ts)).length =
      t.length + (if ts.isEmpty then 0 else 1 + (joinSpace ts).length) := by
  cases ts with
  | nil => simp [joinSpace]
  | cons r rs => simp [joinSpace]; omega

theorem splitWsGo_ne_nil : ∀ (s : List Char) (sk : Bool) (cur : List Char),
    splitWsGo s sk cur ≠ [] := by
  intro s
  induction s with
  | nil => intro sk cur; cases sk <;> simp [splitWsGo]
  | cons c rest ih =>
      intro sk cur
      cases sk with
      | true =>
          by_cases hc : isSpaceC c = true <;> simp [splitWsGo, hc] <;> apply ih
      | false =>
          by_cases hc : isSpaceC c = true <;> simp [splitWsGo, hc]
          apply ih

/-- Splitting on whitespace and rejoining with single spaces never makes
the text longer. -/
theorem splitWsGo_join_length : ∀ (s : List Char) (sk : Bool) (cur : List Char),
    (joinSpace (splitWsGo s sk cur)).length ≤
      (if sk then s.length else cur.length + s.length) := by
  intro s
  induction s with
  | nil =>
      intro sk cur
      cases sk <;> simp [splitWsGo, joinSpace]
  | cons c rest ih =>
      intro sk cur
      have htrue : (joinSpace (splitWsGo rest true [])).length ≤ rest.length := by
        simpa using ih true []
      have hfalse : ∀ cur2 : List Char,
          (joinSpace (splitWsGo rest false cur2)).length ≤
            cur2.length + rest.length := by
        intro cur2; simpa using ih false cur2
      cases sk with
      | true =>
          rw [if_pos rfl]
          by_cases hc : isSpaceC c = true
          · simp only [splitWsGo, hc, if_pos, List.length_cons]
            omega
          · simp only [splitWsGo, hc]
            rw [if_neg (by simp [hc])]
            have := hfalse [c]
            simp only [List.length_singleton, List.length_cons,
              List.length_nil] at this ⊢
            omega
      | false =>
          simp only [if_neg (by simp : ¬(false = true))]
          by_cases hc : isSpaceC c = true
          · simp only [splitWsGo, hc, if_pos]
            rw [joinSpace_cons_length]
            have hne := splitWsGo_ne_nil rest true []
            rw [if_neg (by simpa [List.isEmpty_iff] using hne)]
            simp only [List.length_cons, List.length_reverse]
            omega
          · simp only [splitWsGo, hc]
            rw [if_neg (by simp [hc])]
            have := hfalse (c :: cur)
            simp only [List.length_cons] at this ⊢
            omega

theorem joinSpace_splitWsL_length (u : List Char) :
    (joinSpace (splitWsL u)).length ≤ u.length := by
  simpa using splitWsGo_join_length u false []

theorem jsTrim_length_le (s : List Char) : (jsTrim s).length ≤ s.length := by
  unfold jsTrim
  calc ((s.dropWhile isSpaceC).reverse.dropWhile isSpaceC).reverse.length
      = ((s.dropWhile isSpaceC).reverse.dropWhile isSpaceC).length := by
        rw [List.length_reverse]
    _ ≤ (s.dropWhile isSpaceC).reverse.length :=
        (List.dropWhile_sublist _).length_le
    _ = (s.dropWhile isSpaceC).length := by rw [List.length_reverse]
    _ ≤ s.length := (List.dropWhile_sublist _).length_le

theorem joinSpace_take_length : ∀ (ts : List (List Char)) (k : Nat),
    (joinSpace (ts.take k)).length ≤ (joinSpace ts).length := by
  intro ts
  induction ts with
  | nil => intro k; simp
  | cons t rest ih =>
      intro k
      cases k with
      | zero => simp [joinSpace]
      | succ k =>
          rw [List.take_succ_cons, joinSpace_cons_length, joinSpace_cons_length]
          cases rest with
          | nil => simp
          | cons r rs =>
              by_cases hk : ((r :: rs).take k).isEmpty = true
              · rw [if_pos hk]
                rw [if_neg (by simp)]
                omega
              · rw [if_neg hk, if_neg (by simp)]
                have := ih k
                omega

theorem dropTrailingStops_eq_take :
    ∀ (ts : List (List Char)), ∃ k, dropTrailingStops ts = ts.take k := by
  intro ts
  induction ts with
  | nil => exact ⟨0, rfl⟩
  | cons t rest ih =>
      obtain ⟨k, hk⟩ := ih
      cases hres : dropTrailingStops rest with
      | nil =>
          by_cases hs : isStopword (toUpperL t) = true
          · refine ⟨0, ?_⟩
            unfold dropTrailingStops
            rw [hres, if_pos hs]
            rfl
          · refine ⟨1, ?_⟩
            unfold dropTrailingStops
            rw [hres, if_neg hs]
            rfl
      | cons r rs =>
          refine ⟨k + 1, ?_⟩
          unfold dropTrailingStops
          rw [hres]
          show t :: (r :: rs) = (t :: rest).take (k + 1)
          rw [List.take_succ_cons, ← hk, hres]

theorem popTrailingStop_eq_take (ts : List (List Char)) :
    ∃ k, popTrailingStop ts = ts.take k := by
  cases ts with
  | nil => exact ⟨0, rfl⟩
  | cons t rest =>
      obtain ⟨k, hk⟩ := dropTrailingStops_eq_take rest
      exact ⟨k + 1, by simp [popTrailingStop, hk]⟩

theorem joinSpace_two_le (ts : List (List Char)) (h : 2 ≤ ts.length) :
    1 ≤ (joinSpace ts).length := by
  match ts with
  | [] => simp at h
  | [a] => simp at h
  | a :: b :: l =>
      have : joinSpace (a :: b :: l) = a ++ ' ' :: joinSpace (b :: l) := rfl
      rw [this]
      simp only [List.length_append, List.length_cons]
      omega

/-! Raw-match bounds of the three extractors -/

theorem getLast?_memL {α : Type} : ∀ {l : List α} {x : α},
    l.getLast? = some x → x ∈ l := by
  intro l
  induction l with
  | nil => intro x h; cases h
  | cons a as ih =>
      intro x h
      cases as with
      | nil =>
          have : a = x := by simpa [List.getLast?] using h
          subst this
          exact List.mem_cons_self a []
      | cons b bs =>
          rw [List.getLast?_cons_cons] at h
          exact List.mem_cons_of_mem a (ih h)

/-- A found `lastIndexOf` offset plus the needle length fits in the
haystack. -/
theorem lastIndexOfL_le (s sub : List Char) :
    lastIndexOfL s sub = -1 ∨
      ((max 0 (lastIndexOfL s sub)).toNat + sub.length ≤ s.length) := by
  unfold lastIndexOfL
  cases hg : ((List.range (s.length + 1)).filter (occursAt s sub)).getLast? with
  | none => left; rfl
  | some j =>
      right
      have hmem := getLast?_memL hg
      rw [List.mem_filter] at hmem
      have hj : j < s.length + 1 := List.mem_range.mp hmem.1
      have hocc : ((s.drop j).take sub.length) = sub := by
        simpa [occursAt] using hmem.2
      have hlen := congrArg List.length hocc
      simp only [List.length_take, List.length_drop] at hlen
      have hmax : (max 0 (j : Int)).toNat = j := by
        omega
      rw [hmax]
      omega

theorem extractAssetIds_bounds (cs : List Char) :
    ((extractAssetIds cs).2).all (matchOk cs.length) = true := by
  have hq : ∀ r ∈ allMatches assetIdM cs,
      1 ≤ r.2.1 ∧ r.1 + r.2.1 ≤ cs.length := by
    refine allMatches_post assetIdM cs
      (fun pos len _ => 1 ≤ len ∧ pos + len ≤ cs.length) ?_
    intro pos e a h hle
    have hf := assetIdM_facts h
    omega
  refine foldl_pres_mem (fun acc => acc.2.all (matchOk cs.length) = true)
    (assetStep cs) (allMatches assetIdM cs) ([], []) ?_ rfl
  intro acc r hr hacc
  have hf := hq r hr
  simp only [assetStep]
  rw [List.all_append, hacc]
  have hlen : (sliceL cs r.1 (r.1 + r.2.1)).length = r.2.1 := by
    rw [sliceL_length]; omega
  simp [matchOk, hlen]
  omega

/-- The Phase 1 keyword step keeps raw-match spans valid: the captured
digits are located inside the full match by `lastIndexOf`, so the span
stays inside the input. -/
theorem phase1Step_bounds (cs : List Char)
    (acc : List (List Char) × List RawMatch) (r : Nat × Nat × List Char)
    (hf : 3 ≤ r.2.2.length ∧ r.2.2.length ≤ r.2.1 ∧ r.1 + r.2.1 ≤ cs.length)
    (hacc : acc.2.all (matchOk cs.length) = true) :
    (phase1Step cs acc r).2.all (matchOk cs.length) = true := by
  by_cases hc : r.2.2 ∈ acc.1
  · simpa [phase1Step, hc] using hacc
  · simp only [phase1Step]
    rw [if_neg (by simpa using hc)]
    rw [List.all_append, hacc]
    have hfull : (toLowerL (sliceL cs r.1 (r.1 + r.2.1))).length = r.2.1 := by
      simp only [toLowerL, List.length_map]
      rw [sliceL_length]; omega
    have hsub : (toLowerL r.2.2).length = r.2.2.length := by
      simp [toLowerL]
    rcases lastIndexOfL_le (toLowerL (sliceL cs r.1 (r.1 + r.2.1)))
        (toLowerL r.2.2) with hnone | hle
    · simp [matchOk, hnone]
      omega
    · rw [hfull, hsub] at hle
      simp [matchOk]
      omega

theorem extractLocoNos_phase1_bounds (cs : List Char) :
    (((allMatches kwConcatM cs).foldl (phase1Step cs)
      ((allMatches kwNumberM cs).foldl (phase1Step cs) ([], []))).2).all
      (matchOk cs.length) = true := by
  have hq1 : ∀ r ∈ allMatches kwNumberM cs,
      3 ≤ r.2.2.length ∧ r.2.2.length ≤ r.2.1 ∧ r.1 + r.2.1 ≤ cs.length := by
    refine allMatches_post kwNumberM cs
      (fun pos len cap =>
        3 ≤ cap.length ∧ cap.length ≤ len ∧ pos + len ≤ cs.length) ?_
    intro pos e a h hle
    have hf := kwNumberM_facts h
    omega
  have hq2 : ∀ r ∈ allMatches kwConcatM cs,
      3 ≤ r.2.2.length ∧ r.2.2.length ≤ r.2.1 ∧ r.1 + r.2.1 ≤ cs.length := by
    refine allMatches_post kwConcatM cs
      (fun pos len cap =>
        3 ≤ cap.length ∧ cap.length ≤ len ∧ pos + len ≤ cs.length) ?_
    intro pos e a h hle
    have hf := kwConcatM_facts h
    omega
  have h1 : (((allMatches kwNumberM cs).foldl (phase1Step cs) ([], [])).2).all
      (matchOk cs.length) = true := by
    refine foldl_pres_mem (fun acc => acc.2.all (matchOk cs.length) = true)
      (phase1Step cs) (allMatches kwNumberM cs) ([], []) ?_ rfl
    intro acc r hr hacc
    exact phase1Step_bounds cs acc r (hq1 r hr) hacc
  refine foldl_pres_mem (fun acc => acc.2.all (matchOk cs.length) = true)
    (phase1Step cs) (allMatches kwConcatM cs) _ ?_ h1
  intro acc r hr hacc
  exact phase1Step_bounds cs acc r (hq2 r hr) hacc

theorem filter_all {α : Type} (P q : α → Bool) (l : List α)
    (h : l.all P = true) : (l.filter q).all P = true := by
  rw [List.all_eq_true] at h ⊢
  intro x hx
  exact h x (List.mem_of_mem_filter hx)

theorem phase2Accept_all (P : NumCand → Bool) (cands : List NumCand)
    (h : cands.all P = true) : (phase2Accept cands).all P = true := by
  match cands with
  | [] => exact h
  | [c] =>
      by_cases hs : 1 ≤ c.score
      · simpa [phase2Accept, hs] using h
      · simp [phase2Accept, hs]
  | a :: b :: rest => exact filter_all P _ _ h

/-- Every collected Phase 2 candidate has a valid span. -/
theorem phase2_fold_span (cs : List Char) (prior : List (List Char))
    (hd : Bool) :
    (((allMatches locoNumberM cs).foldl (phase2Step cs prior hd) []).all
      (fun c => decide (c.start < c.endP) && decide (c.endP ≤ cs.length)))
      = true := by
  have hq : ∀ r ∈ allMatches locoNumberM cs,
      r.2.1 = r.2.2.length ∧ 3 ≤ r.2.2.length ∧ r.1 + r.2.1 ≤ cs.length := by
    refine allMatches_post locoNumberM cs
      (fun pos len cap =>
        len = cap.length ∧ 3 ≤ cap.length ∧ pos + len ≤ cs.length) ?_
    intro pos e a h hle
    have hf := locoNumberM_facts h
    omega
  refine foldl_pres_mem
    (fun cands => cands.all
      (fun c => decide (c.start < c.endP) && decide (c.endP ≤ cs.length)) = true)
    (phase2Step cs prior hd) (allMatches locoNumberM cs) [] ?_ rfl
  intro acc r hr hacc
  have hf := hq r hr
  by_cases h1 : r.2.2 ∈ prior
  case pos => simpa [phase2Step, h1] using hacc
  case neg =>
    cases h2 : isFollowedByDayish cs (r.1 + r.2.2.length) with
    | true => simpa [phase2Step, h1, h2] using hacc
    | false =>
      cases h3 : looksLikeCountNumber cs r.1 (r.1 + r.2.2.length) with
      | true => simpa [phase2Step, h1, h2, h3] using hacc
      | false =>
        cases h4 : looksLikeYear (digitsToNat r.2.2) with
        | true => simpa [phase2Step, h1, h2, h3, h4] using hacc
        | false =>
          simp [phase2Step, h1, h2, h3, h4, List.all_append, hacc]
          omega

theorem extractLocoNos_bounds (cs : List Char) :
    ((extractLocoNos cs).2).all (matchOk cs.length) = true := by
  have h1 := extractLocoNos_phase1_bounds cs
  have h2 := phase2_fold_span cs
    (((allMatches kwConcatM cs).foldl (phase1Step cs)
      ((allMatches kwNumberM cs).foldl (phase1Step cs) ([], []))).1)
    (hasDomainContext cs)
  have h3 := phase2Accept_all _ _ h2
  show ((((allMatches kwConcatM cs).foldl (phase1Step cs)
      ((allMatches kwNumberM cs).foldl (phase1Step cs) ([], []))).2)
    ++ (phase2Accept ((allMatches locoNumberM cs).foldl
        (phase2Step cs (((allMatches kwConcatM cs).foldl (phase1Step cs)
          ((allMatches kwNumberM cs).foldl (phase1Step cs) ([], []))).1)
          (hasDomainContext cs)) [])).map
      (fun c => (⟨RawMatchKind.locoNo, c.numText, c.start, c.endP⟩ : RawMatch))).all
    (matchOk cs.length) = true
  rw [List.all_append, h1]
  simp only [Bool.true_and]
  rw [List.all_eq_true]
  intro m hm
  obtain ⟨c, hc, rfl⟩ := List.mem_map.mp hm
  have hcs := (List.all_eq_true.mp h3) c hc
  simpa [matchOk] using hcs

theorem nsPhase0Step_bounds (cs : List Char)
    (acc : List (List Char) × List RawMatch)
    (r : Nat × Nat × (List Char × List Char))
    (hf : 1 ≤ r.2.1 ∧ r.1 + r.2.1 ≤ cs.length)
    (hacc : acc.2.all (matchOk cs.length) = true) :
    (nsPhase0Step cs acc r).2.all (matchOk cs.length) = true := by
  have hlen : (sliceL cs r.1 (r.1 + r.2.1)).length = r.2.1 := by
    rw [sliceL_length]; omega
  cases h1 : isStopword (toUpperL r.2.2.2) with
  | true => simpa [nsPhase0Step, h1] using hacc
  | false =>
    cases h2 : modelish r.2.2.2 with
    | false => simpa [nsPhase0Step, h1, h2] using hacc
    | true =>
      by_cases h3 : (r.2.2.1 ++ ' ' :: r.2.2.2) ∈ acc.1
      · simpa [nsPhase0Step, h1, h2, h3] using hacc
      · simp [nsPhase0Step, h1, h2, h3, List.all_append, hacc, matchOk, hlen]
        omega

/-- Popping trailing stopwords and truncation only shorten the joined
phrase. -/
theorem phrase_pop_bound (tokens1 : List (List Char)) :
    (joinSpace (popTrailingStop tokens1)).length ≤
      (joinSpace tokens1).length := by
  obtain ⟨k, hk⟩ := popTrailingStop_eq_take tokens1
  rw [hk]
  exact joinSpace_take_length tokens1 k

/-- The phrase built by Phase 1 of `extractNames` is non-empty and does
not reach past the end of the input: it re-joins (with single spaces) a
sub-sequence of the whitespace-split tokens of text that was physically
present from the number onwards. -/
theorem nsPhase1Phrase_bound (cs : List Char) (r : Nat × Nat × List Char)
    (phrase : List Char) (h : nsPhase1Phrase cs r = some phrase)
    (hf : r.1 + r.2.2.length ≤ cs.length) :
    1 ≤ phrase.length ∧ r.1 + phrase.length ≤ cs.length := by
  simp only [nsPhase1Phrase] at h
  split at h
  · cases h
  · rename_i e heq
    split at h
    · cases h
    · split at h
      · cases h
      · split at h
        · cases h
        · rename_i hg2 hg3 hg4
          have hphrase := Option.some.inj h
          have hmem : ((e.1, e.2) : Nat × Unit) ∈
              afterPhraseM (cs.drop (r.1 + r.2.2.length)) 0 := by
            simpa using head?_mem heq
          have hap := afterPhraseM_facts hmem
          have hdrop : (cs.drop (r.1 + r.2.2.length)).length =
              cs.length - (r.1 + r.2.2.length) := List.length_drop _ _
          have hafter : (sliceL (cs.drop (r.1 + r.2.2.length)) 0 e.1).length
              = e.1 := by
            rw [sliceL_length]
            omega
          -- the phrase is a re-join of a token sub-sequence of the text
          -- from the number onwards
          have hchain : phrase.length ≤
              r.2.2.length +
                (sliceL (cs.drop (r.1 + r.2.2.length)) 0 e.1).length := by
            rw [← hphrase]
            have hstep1 := phrase_pop_bound
              (match (splitWsL (jsTrim (r.2.2 ++
                  sliceL (cs.drop (r.1 + r.2.2.length)) 0 e.1))).drop 1
                  |>.findIdx? (fun t => isStopword (toUpperL t)) with
               | some k => (splitWsL (jsTrim (r.2.2 ++
                  sliceL (cs.drop (r.1 + r.2.2.length)) 0 e.1))).take (k + 1)
               | none => splitWsL (jsTrim (r.2.2 ++
                  sliceL (cs.drop (r.1 + r.2.2.length)) 0 e.1)))
            have hstep2 : (joinSpace
                (match (splitWsL (jsTrim (r.2.2 ++
                    sliceL (cs.drop (r.1 + r.2.2.length)) 0 e.1))).drop 1
                    |>.findIdx? (fun t => isStopword (toUpperL t)) with
                 | some k => (splitWsL (jsTrim (r.2.2 ++
                    sliceL (cs.drop (r.1 + r.2.2.length)) 0 e.1))).take (k + 1)
                 | none => splitWsL (jsTrim (r.2.2 ++
                    sliceL (cs.drop (r.1 + r.2.2.length)) 0 e.1)))).length ≤
              (joinSpace (splitWsL (jsTrim (r.2.2 ++
                  sliceL (cs.drop (r.1 + r.2.2.length)) 0 e.1)))).length := by
              cases hidx : (splitWsL (jsTrim (r.2.2 ++
                  sliceL (cs.drop (r.1 + r.2.2.length)) 0 e.1))).drop 1
                  |>.findIdx? (fun t => isStopword (toUpperL t)) with
              | some k => exact joinSpace_take_length _ (k + 1)
              | none => exact Nat.le_refl _
            have hstep3 := joinSpace_splitWsL_length
              (jsTrim (r.2.2 ++ sliceL (cs.drop (r.1 + r.2.2.length)) 0 e.1))
            have hstep4 := jsTrim_length_le
              (r.2.2 ++ sliceL (cs.drop (r.1 + r.2.2.length)) 0 e.1)
            simp only [List.length_append] at hstep4
            omega
          have hpos : 1 ≤ phrase.length := by
            rw [← hphrase]
            apply joinSpace_two_le
            omega
          rw [hafter] at hchain
          omega

theorem nsPhase1Step_bounds (cs : List Char)
    (acc : List (List Char) × List RawMatch) (r : Nat × Nat × List Char)
    (hf : r.1 + r.2.2.length ≤ cs.length)
    (hacc : acc.2.all (matchOk cs.length) = true) :
    (nsPhase1Step cs acc r).2.all (matchOk cs.length) = true := by
  cases hp : nsPhase1Phrase cs r with
  | none => simpa [nsPhase1Step, hp] using hacc
  | some phrase =>
      have hb := nsPhase1Phrase_bound cs r phrase hp hf
      by_cases hc : phrase ∈ acc.1
      · simpa [nsPhase1Step, hp, hc] using hacc
      · simp [nsPhase1Step, hp, hc, List.all_append, hacc, matchOk]
        omega

theorem nsPhase2Step_bounds (cs : List Char)
    (acc : List (List Char) × List RawMatch) (r : Nat × Nat × List Char)
    (hf : 1 ≤ r.2.2.length ∧ r.1 + r.2.2.length ≤ cs.length)
    (hacc : acc.2.all (matchOk cs.length) = true) :
    (nsPhase2Step cs acc r).2.all (matchOk cs.length) = true := by
  cases h1 : isStopword (toUpperL r.2.2) with
  | true => simpa [nsPhase2Step, h1] using hacc
  | false =>
    cases h2 : r.2.2.any (fun c => isDigitC c || (c == '-') || (c == '/')) with
    | false => simpa [nsPhase2Step, h1, h2] using hacc
    | true =>
      cases h3 : nearKeywords cs r.1 (r.1 + r.2.2.length) 25 with
      | false => simpa [nsPhase2Step, h1, h2, h3] using hacc
      | true =>
        cases h4 : acc.1.any (fun n => containsSub n r.2.2) with
        | true => simpa [nsPhase2Step, h1, h2, h3, h4] using hacc
        | false =>
          simp [nsPhase2Step, h1, h2, h3, h4, List.all_append, hacc, matchOk]
          omega

theorem extractNames_bounds (cs : List Char) :
    ((extractNames cs).2).all (matchOk cs.length) = true := by
  have hq0 : ∀ r ∈ allMatches nospaceM cs,
      1 ≤ r.2.1 ∧ r.1 + r.2.1 ≤ cs.length := by
    refine allMatches_post nospaceM cs
      (fun pos len _ => 1 ≤ len ∧ pos + len ≤ cs.length) ?_
    intro pos e a h hle
    have hft := nospaceM_facts h
    omega
  have hq1 : ∀ r ∈ allMatches locoNumberStartM cs,
      r.1 + r.2.2.length ≤ cs.length := by
    refine allMatches_post locoNumberStartM cs
      (fun pos _ cap => pos + cap.length ≤ cs.length) ?_
    intro pos e a h hle
    rw [locoNumberStartM_eq] at h
    have hft := locoNumberM_facts h
    omega
  have hq2 : ∀ r ∈ allMatches modelTokenM cs,
      1 ≤ r.2.2.length ∧ r.1 + r.2.2.length ≤ cs.length := by
    refine allMatches_post modelTokenM cs
      (fun pos _ cap => 1 ≤ cap.length ∧ pos + cap.length ≤ cs.length) ?_
    intro pos e a h hle
    have hft := modelTokenM_facts h
    omega
  have h0 : (((allMatches nospaceM cs).foldl (nsPhase0Step cs) ([], [])).2).all
      (matchOk cs.length) = true := by
    refine foldl_pres_mem (fun acc => acc.2.all (matchOk cs.length) = true)
      (nsPhase0Step cs) (allMatches nospaceM cs) ([], []) ?_ rfl
    intro acc r hr hacc
    exact nsPhase0Step_bounds cs acc r (hq0 r hr) hacc
  have h1 : (((allMatches locoNumberStartM cs).foldl (nsPhase1Step cs)
      ((allMatches nospaceM cs).foldl (nsPhase0Step cs) ([], []))).2).all
      (matchOk cs.length) = true := by
    refine foldl_pres_mem (fun acc => acc.2.all (matchOk cs.length) = true)
      (nsPhase1Step cs) (allMatches locoNumberStartM cs) _ ?_ h0
    intro acc r hr hacc
    exact nsPhase1Step_bounds cs acc r (hq1 r hr) hacc
  refine foldl_pres_mem (fun acc => acc.2.all (matchOk cs.length) = true)
    (nsPhase2Step cs) (allMatches modelTokenM cs) _ ?_ h1
  intro acc r hr hacc
  exact nsPhase2Step_bounds cs acc r (hq2 r hr) hacc

/-- C8: every extraction result is well-formed: the three candidate lists
are duplicate-free, every raw match has `0 ≤ start < end ≤ input length`,
and the raw matches are sorted ascending by start offset. -/
theorem c8_extraction_wellformed (input : String) :
    wellFormedB (extractLocoQuery input) = true := by
  have ha := extractAssetIds_bounds input.data
  have hl := extractLocoNos_bounds input.data
  have hn := extractNames_bounds input.data
  have hraw : (extractLocoQuery input).rawMatches =
      sortByStart ((extractAssetIds input.data).2 ++
        (extractLocoNos input.data).2 ++ (extractNames input.data).2) := rfl
  have hnodupA : nodupB (extractLocoQuery input).assetIds = true :=
    uniq_nodupB _
  have hnodupL : nodupB (extractLocoQuery input).locoNos = true :=
    uniq_nodupB _
  have hnodupN : nodupB (extractLocoQuery input).names = true :=
    uniq_nodupB _
  have hall : ((extractLocoQuery input).rawMatches).all
      (matchOk (extractLocoQuery input).input.length) = true := by
    rw [hraw]
    apply sortByStart_all
    rw [List.all_append, List.all_append]
    have heq : (extractLocoQuery input).input.length = input.data.length := rfl
    rw [heq, ha, hl, hn]
    rfl
  have hsort : sortedByStartB ((extractLocoQuery input).rawMatches) = true := by
    rw [hraw]
    exact sortByStart_sorted _
  simp [wellFormedB, hnodupA, hnodupL, hnodupN, hall, hsort]

end Loco
